import Mathlib

/-!
Verification of the incremental code-ingestion pipeline (change detection,
structure-aware chunking, chunk identity, index reconciliation) of the
code-rag repository, as a shallow embedding in Lean.

Strings are modelled as lists of characters; byte offsets of the C# parser
are modelled as character offsets (ASCII); the cryptographic digest of the
chunk-identity function is modelled symbolically by its pre-image string,
since a digest is deterministic and assumed collision-resistant; the vector
store collection is modelled as a list of chunk records keyed by unique
identifiers, with upsert de-duplicating by identifier as its interface
contract states.
-/

namespace CodeRAG

abbrev Str := List Char

/-- Whitespace set of Python str.strip (ASCII core). -/
def isWS (c : Char) : Bool :=
  c == ' ' || c == '\t' || c == '\n' || c == '\r' || c == '\x0b' || c == '\x0c'

/-- Python str.strip: remove leading and trailing whitespace. -/
def strip (s : Str) : Str :=
  ((s.dropWhile isWS).reverse.dropWhile isWS).reverse

/-- '\n'.join(lines). -/
def joinLines : List Str → Str
  | [] => []
  | [l] => l
  | l :: l' :: ls => l ++ '\n' :: joinLines (l' :: ls)

/-- Python content.split('\n'): always returns at least one (possibly empty) line. -/
def splitLines : Str → List Str
  | [] => [[]]
  | c :: rest =>
    if c = '\n' then [] :: splitLines rest
    else
      match splitLines rest with
      | [] => [[c]]
      | h :: t => (c :: h) :: t

/-- Python lines[s : e+1] (clamped slice). -/
def sliceLines (lines : List Str) (s e : Nat) : List Str :=
  (lines.drop s).take (e + 1 - s)

/-- Decimal digit character. -/
def digitChar (n : Nat) : Char := Char.ofNat (48 + n)

/-- Decimal rendering of a natural number, fuel-driven so that it reduces
in the kernel; the initial fuel `n+1` always suffices. -/
def natDigitsAux : Nat → Nat → Str → Str
  | 0, _, acc => acc
  | fuel + 1, n, acc =>
    if n < 10 then digitChar n :: acc
    else natDigitsAux fuel (n / 10) (digitChar (n % 10) :: acc)

def natDigits (n : Nat) : Str := natDigitsAux (n + 1) n []

/-- Supported languages (src/models.py, Language enum). -/
inductive Lang where
  | csharp | python | javascript | typescript | java | go
deriving DecidableEq

/-- A code chunk with metadata (src/models.py, CodeChunk).  The open-ended
metadata map is modelled by its three used keys: name, context, byte_size.
The created_at timestamp is real time and is not modelled. -/
structure CodeChunk where
  id : Str
  repoName : Str
  filePath : Str
  language : Lang
  content : Str
  startLine : Nat
  endLine : Nat
  commitHash : Str
  chunkType : Str
  metaName : Option Str
  metaContext : Option Str
  byteSize : Nat
deriving DecidableEq

/-- Chunking settings (src/config.py: max_chunk_size, chunk_overlap). -/
structure ExtractCfg where
  maxChunkSize : Nat
  chunkOverlap : Nat
deriving DecidableEq

/-- The pre-image string of _generate_chunk_id (src/code_parser.py):
f-string repo:path:start_line:commit.  The sha256-and-truncate digest
applied to it is deterministic, so two equal pre-images always give the
same identifier; the digest is modelled symbolically by the pre-image. -/
def chunkIdKey (repo path : Str) (startLine : Nat) (commit : Str) : Str :=
  repo ++ ':' :: path ++ ':' :: natDigits startLine ++ ':' :: commit

/-- A tree-sitter syntax node: kind, start/end row (0-indexed line numbers),
start/end byte offsets, children. -/
inductive CSNode where
  | mk (kind : Str) (startRow endRow startByte endByte : Nat) (children : List CSNode)

def CSNode.kind : CSNode → Str
  | .mk k _ _ _ _ _ => k

def CSNode.startRow : CSNode → Nat
  | .mk _ sr _ _ _ _ => sr

def CSNode.endRow : CSNode → Nat
  | .mk _ _ er _ _ _ => er

def CSNode.startByte : CSNode → Nat
  | .mk _ _ _ sb _ _ => sb

def CSNode.endByte : CSNode → Nat
  | .mk _ _ _ _ eb _ => eb

def CSNode.kids : CSNode → List CSNode
  | .mk _ _ _ _ _ cs => cs

/-- Node kinds extracted by _parse_csharp (target_types). -/
def targetTypes : List Str :=
  ["class_declaration".toList, "interface_declaration".toList,
   "struct_declaration".toList, "enum_declaration".toList,
   "method_declaration".toList, "constructor_declaration".toList,
   "property_declaration".toList, "namespace_declaration".toList]

/-- Kinds treated as containers for the oversized-node rule. -/
def containerTypes : List Str :=
  ["class_declaration".toList, "namespace_declaration".toList]

/-- Kinds whose children are not traversed after emitting (complete units). -/
def leafTypes : List Str :=
  ["method_declaration".toList, "property_declaration".toList,
   "constructor_declaration".toList]

/-- _extract_name: first child of type identifier, sliced out of the file
content by byte offsets, else "anonymous". -/
def extractName (node : CSNode) (content : Str) : Str :=
  match node.kids.find? (fun c => c.kind = "identifier".toList) with
  | some c => (content.drop c.startByte).take (c.endByte - c.startByte)
  | none => "anonymous".toList

mutual

/-- The recursive traverse closure of _parse_csharp (src/code_parser.py
lines 105-162), returning the chunks appended during the walk in order. -/
def traverse (cfg : ExtractCfg) (lines : List Str) (content : Str)
    (repo path commit : Str) : CSNode → Str → List CodeChunk
  | .mk kind sr er sb eb cs, ctx =>
    if kind ∈ targetTypes then
      let nodeContent := joinLines (sliceLines lines sr er)
      if (strip nodeContent).length < 10 then []
      else if nodeContent.length > cfg.maxChunkSize * 2 ∧ kind ∈ containerTypes then
        traverseList cfg lines content repo path commit cs ctx
      else
        let name := extractName (.mk kind sr er sb eb cs) content
        let context := if ctx = [] then name else ctx ++ '.' :: name
        let chunk : CodeChunk :=
          { id := chunkIdKey repo path sr commit
            repoName := repo, filePath := path, language := .csharp
            content := nodeContent, startLine := sr + 1, endLine := er + 1
            commitHash := commit, chunkType := kind
            metaName := some name, metaContext := some context
            byteSize := nodeContent.length }
        chunk :: (if kind ∈ leafTypes then []
                  else traverseList cfg lines content repo path commit cs ctx)
    else traverseList cfg lines content repo path commit cs ctx

/-- for child in node.children: traverse(child, parent_context). -/
def traverseList (cfg : ExtractCfg) (lines : List Str) (content : Str)
    (repo path commit : Str) : List CSNode → Str → List CodeChunk
  | [], _ => []
  | c :: rest, ctx =>
    traverse cfg lines content repo path commit c ctx ++
      traverseList cfg lines content repo path commit rest ctx

end

/-- _parse_csharp: split content into lines and walk from the root. -/
def parseCsharp (cfg : ExtractCfg) (root : CSNode) (content : Str)
    (path repo commit : Str) : List CodeChunk :=
  traverse cfg (splitLines content) content repo path commit root []

/-- Loop state of _simple_chunking: chunks so far, current_chunk,
current_size, start_line (all 0-indexed as in the source). -/
structure SCSt where
  chunks : List CodeChunk
  cur : List Str
  size : Nat
  start : Nat
deriving DecidableEq

/-- The backward overlap walk of _simple_chunking (lines 222-230): walk the
closed chunk from its last line, keeping lines while the accumulated size
stays within the overlap budget; `rev` is the closed chunk reversed. -/
def overlapTake (overlap : Nat) : List Str → List Str → Nat → List Str × Nat
  | [], acc, accSize => (acc, accSize)
  | l :: rest, acc, accSize =>
    if accSize + (l.length + 1) ≤ overlap then
      overlapTake overlap rest (l :: acc) (accSize + (l.length + 1))
    else (acc, accSize)

/-- One iteration of the for-loop of _simple_chunking at index `i`. -/
def scStep (cfg : ExtractCfg) (path repo commit : Str) (lang : Lang)
    (st : SCSt) (i : Nat) (line : Str) : SCSt :=
  let lineSize := line.length + 1
  let st' :=
    if st.size + lineSize > cfg.maxChunkSize ∧ st.cur ≠ [] then
      let chunkContent := joinLines st.cur
      let chunk : CodeChunk :=
        { id := chunkIdKey repo path st.start commit
          repoName := repo, filePath := path, language := lang
          content := chunkContent, startLine := st.start + 1, endLine := i
          commitHash := commit, chunkType := "simple_chunk".toList
          metaName := none, metaContext := none
          byteSize := chunkContent.length }
      let ov := overlapTake cfg.chunkOverlap st.cur.reverse [] 0
      { chunks := st.chunks ++ [chunk], cur := ov.1, size := ov.2
        start := i - ov.1.length }
    else st
  { st' with cur := st'.cur ++ [line], size := st'.size + lineSize }

/-- enumerate(lines) loop of _simple_chunking; `i` is the index of the head. -/
def scLoop (cfg : ExtractCfg) (path repo commit : Str) (lang : Lang) :
    Nat → List Str → SCSt → SCSt
  | _, [], st => st
  | i, l :: rest, st =>
    scLoop cfg path repo commit lang (i + 1) rest
      (scStep cfg path repo commit lang st i l)

/-- _simple_chunking (src/code_parser.py lines 175-260): the sliding-window
fallback, ending with the flush of the remaining chunk. -/
def simpleChunking (cfg : ExtractCfg) (content : Str)
    (path repo commit : Str) (lang : Lang) : List CodeChunk :=
  let lines := splitLines content
  let st := scLoop cfg path repo commit lang 0 lines ⟨[], [], 0, 0⟩
  if st.cur ≠ [] then
    let chunkContent := joinLines st.cur
    let chunk : CodeChunk :=
      { id := chunkIdKey repo path st.start commit
        repoName := repo, filePath := path, language := lang
        content := chunkContent, startLine := st.start + 1
        endLine := lines.length
        commitHash := commit, chunkType := "simple_chunk".toList
        metaName := none, metaContext := none
        byteSize := chunkContent.length }
    st.chunks ++ [chunk]
  else st.chunks

/-- parse_file (src/code_parser.py lines 33-79).  The tree-sitter parser is
external: `parserAvail` says whether the C# parser initialized, and `tree`
is the parse result for the content, `none` modelling a raised exception
(which parse_file catches, falling back to windowed chunking). -/
def parseFile (cfg : ExtractCfg) (parserAvail : Bool) (tree : Option CSNode)
    (content : Str) (path repo commit : Str) (lang : Lang) : List CodeChunk :=
  if lang = .csharp ∧ parserAvail then
    match tree with
    | none => simpleChunking cfg content path repo commit lang
    | some t =>
      let cs := parseCsharp cfg t content path repo commit
      if cs = [] then simpleChunking cfg content path repo commit lang
      else cs
  else simpleChunking cfg content path repo commit lang

/-- Repository configuration (src/models.py, RepositoryConfig; the url is
not used by the modelled operations). -/
structure RepoCfg where
  name : Str
  branch : Str
  localPath : Str
  enabled : Bool
  languages : List Lang
  excludePatterns : List Str
deriving DecidableEq

/-- Python str.replace(pat, rep) with a non-empty pattern, fuel-driven so
that it reduces in the kernel (fuel s.length + 1 always suffices). -/
def replaceAllAux (pat rep : Str) : Nat → Str → Str
  | 0, s => s
  | _ + 1, [] => []
  | fuel + 1, c :: rest =>
    if pat ≠ [] ∧ pat.isPrefixOf (c :: rest) then
      rep ++ replaceAllAux pat rep fuel ((c :: rest).drop pat.length)
    else c :: replaceAllAux pat rep fuel rest

def replaceAll (pat rep s : Str) : Str := replaceAllAux pat rep (s.length + 1) s

/-- pattern.replace("*/", "").replace("/*", "") of _should_process_file. -/
def cleanPattern (pat : Str) : Str :=
  replaceAll "/*".toList [] (replaceAll "*/".toList [] pat)

/-- Final path component (text after the last '/'). -/
def lastComponent (p : Str) : Str := (p.reverse.takeWhile (· ≠ '/')).reverse

/-- Python pathlib Path(p).suffix: the extension of the final component,
empty when there is no dot, the dot is leading, or the dot is trailing. -/
def pathSuffix (p : Str) : Str :=
  let n := lastComponent p
  let ext := n.reverse.takeWhile (· ≠ '.')
  if ext.length = n.length ∨ ext.length + 1 = n.length ∨ ext = [] then []
  else '.' :: ext.reverse

/-- language_extensions of _should_process_file (src/git_manager.py). -/
def languageExtensions : Lang → List Str
  | .csharp => [".cs".toList]
  | .python => [".py".toList]
  | .javascript => [".js".toList, ".jsx".toList]
  | .typescript => [".ts".toList, ".tsx".toList]
  | .java => [".java".toList]
  | .go => [".go".toList]

/-- Python substring test needle in hay. -/
def isSubstr (needle : Str) : Str → Bool
  | [] => needle.isEmpty
  | c :: rest => needle.isPrefixOf (c :: rest) || isSubstr needle rest

/-- _should_process_file (src/git_manager.py lines 159-188): the extension
must map to a tracked language and no cleaned exclusion pattern may occur
as a substring of the path. -/
def shouldProcessFile (cfg : RepoCfg) (p : Str) : Bool :=
  let suffix := (pathSuffix p).map Char.toLower
  let validExts := (cfg.languages.map languageExtensions).flatten
  decide (suffix ∈ validExts) &&
    cfg.excludePatterns.all (fun pat => ! isSubstr (cleanPattern pat) p)

/-- One entry of a GitPython DiffIndex: change_type string, a_path (None
for some added files), b_path. -/
structure DiffItem where
  changeType : Str
  aPath : Option Str
  bPath : Str
deriving DecidableEq

/-- The repository's observable git state for one pass: the blob paths of
the current tree, and the diff between the previous marker and HEAD —
`none` models the diff computation raising (unresolvable marker, corrupted
history), which get_changed_files catches. -/
structure GitEnv where
  snapshot : List Str
  diffResult : Option (List DiffItem)
deriving DecidableEq

/-- Python set.add on a membership-deduplicating list model of a set. -/
def insertOnce (x : Str) (s : List Str) : List Str :=
  if x ∈ s then s else s ++ [x]

/-- The first-run / fallback loop of get_changed_files: every admissible
blob of the current tree. -/
def allAdmissible (cfg : RepoCfg) (snapshot : List Str) : List Str :=
  snapshot.foldl (fun acc p => if shouldProcessFile cfg p then insertOnce p acc else acc) []

/-- Loop body of get_changed_files over the diff items (lines 127-141). -/
def diffStep (cfg : RepoCfg) (acc : List Str × List Str × List Str)
    (item : DiffItem) : List Str × List Str × List Str :=
  let added := acc.1
  let modified := acc.2.1
  let deleted := acc.2.2
  let filePath :=
    match item.aPath with
    | some a => if a = [] then item.bPath else a
    | none => item.bPath
  if ¬ shouldProcessFile cfg filePath then acc
  else if item.changeType = "A".toList then
    (insertOnce filePath added, modified, deleted)
  else if item.changeType = "M".toList then
    (added, insertOnce filePath modified, deleted)
  else if item.changeType = "D".toList then
    (added, modified, insertOnce filePath deleted)
  else if item.changeType = "R".toList then
    (insertOnce item.bPath added, modified,
     insertOnce (item.aPath.getD []) deleted)
  else acc

/-- get_changed_files (src/git_manager.py lines 97-157). -/
def getChangedFiles (cfg : RepoCfg) (env : GitEnv) (oldCommit : Option Str) :
    List Str × List Str × List Str :=
  match oldCommit with
  | none => (allAdmissible cfg env.snapshot, [], [])
  | some _ =>
    match env.diffResult with
    | none => (allAdmissible cfg env.snapshot, [], [])
    | some items => items.foldl (diffStep cfg) ([], [], [])

/-- Per-repository state record (src/models.py, RepositoryState; the
last_processed_at timestamp is real time and is not modelled). -/
structure RepoState where
  repoName : Str
  lastCommitHash : Option Str
  totalChunks : Int
  totalFiles : Nat
deriving DecidableEq

/-- _detect_language (src/ingestion_service.py lines 224-239). -/
def detectLanguage (p : Str) : Option Lang :=
  let s := (pathSuffix p).map Char.toLower
  if s = ".cs".toList then some .csharp
  else if s = ".py".toList then some .python
  else if s = ".js".toList then some .javascript
  else if s = ".jsx".toList then some .javascript
  else if s = ".ts".toList then some .typescript
  else if s = ".tsx".toList then some .typescript
  else if s = ".java".toList then some .java
  else if s = ".go".toList then some .go
  else none

/-- delete_chunks_by_file (src/vector_store.py lines 247-273): remove the
records matching (repo_name, file_path); identifiers are unique collection
keys, so deleting the matched ids removes exactly the matched records.
Returns the remaining store and the number removed. -/
def deleteChunksByFile (repo path : Str) (store : List CodeChunk) :
    List CodeChunk × Nat :=
  let remaining := store.filter (fun c => ¬ (c.repoName = repo ∧ c.filePath = path))
  (remaining, store.length - remaining.length)

/-- delete_chunks_by_repo (src/vector_store.py lines 275-294). -/
def deleteChunksByRepo (repo : Str) (store : List CodeChunk) :
    List CodeChunk × Nat :=
  let remaining := store.filter (fun c => ¬ c.repoName = repo)
  (remaining, store.length - remaining.length)

/-- The collection insert behind add_chunks: the store de-duplicates by
chunk identifier on upsert (re-inserting an existing identifier is a
no-op), per the vector-store interface contract. -/
def upsertChunks (store : List CodeChunk) (chunks : List CodeChunk) :
    List CodeChunk :=
  chunks.foldl (fun s c => if s.any (fun d => d.id = c.id) then s else s ++ [c]) store

/-- The chunks that survive identifier de-duplication (first occurrence of
each identifier kept). -/
def dedupById (chunks : List CodeChunk) : List CodeChunk := upsertChunks [] chunks

/-- Statistics dictionary of process_repository. -/
structure Stats where
  filesProcessed : Nat
  filesAdded : Nat
  filesModified : Nat
  filesDeleted : Nat
  chunksAdded : Nat
  chunksDeleted : Nat
deriving DecidableEq

def zeroStats : Stats := ⟨0, 0, 0, 0, 0, 0⟩

/-- The ingestion service's durable and in-memory state: the vector-store
collection, the in-memory states dict, and the last successfully written
serialization of the states file on disk. -/
structure SysState where
  store : List CodeChunk
  states : List (Str × RepoState)
  disk : List (Str × RepoState)
deriving DecidableEq

def lookupState (name : Str) (m : List (Str × RepoState)) : Option RepoState :=
  (m.find? (fun p => p.1 = name)).map (·.2)

/-- Python dict assignment self.states[name] = st. -/
def insertState (name : Str) (st : RepoState) (m : List (Str × RepoState)) :
    List (Str × RepoState) :=
  if m.any (fun p => p.1 = name) then
    m.map (fun p => if p.1 = name then (name, st) else p)
  else m ++ [(name, st)]

/-- Python del self.states[name]. -/
def eraseState (name : Str) (m : List (Str × RepoState)) :
    List (Str × RepoState) :=
  m.filter (fun p => ¬ p.1 = name)

/-- The environment of one process_repository pass: results of the
external git, parser and filesystem operations, and whether the state-file
write succeeds.  `gitOk` covers clone_or_open and pull_latest (a failure
there raises); `treeOf` is the tree-sitter parse of a content; `saveOk`
is whether the json dump in _save_states succeeds (its failure is caught
inside _save_states and only logged). -/
structure IngestEnv where
  gitOk : Bool
  hasChanges : Bool
  currentCommit : Str
  git : GitEnv
  fileContent : Str → Option Str
  parserAvail : Bool
  treeOf : Str → Option CSNode
  saveOk : Bool
  ecfg : ExtractCfg

/-- _save_states (src/ingestion_service.py lines 47-57): serialize the
in-memory states; any exception is caught and logged, never re-raised, so
on failure the old disk contents remain and the caller continues. -/
def saveStates (saveOk : Bool) (states disk : List (Str × RepoState)) :
    List (Str × RepoState) :=
  if saveOk then states else disk

/-- Deleted-files loop of process_repository (lines 123-129). -/
def deleteFileStep (repoName : Str) (acc : SysState × Stats) (p : Str) :
    SysState × Stats :=
  let st := acc.1
  let stats := acc.2
  let r := deleteChunksByFile repoName p st.store
  ({ st with store := r.1 },
   { stats with chunksDeleted := stats.chunksDeleted + r.2
                filesDeleted := stats.filesDeleted + 1 })

/-- Per-file body of process_repository (lines 134-175): detect language,
read content, retire old chunks for modified paths, extract and persist. -/
def processFileStep (ecfg : ExtractCfg) (repoName currentCommit : Str)
    (env : IngestEnv) (modified : List Str)
    (acc : SysState × Stats) (p : Str) : SysState × Stats :=
  let st := acc.1
  let stats := acc.2
  match detectLanguage p with
  | none => (st, stats)
  | some lang =>
    match env.fileContent p with
    | none => (st, stats)
    | some content =>
      if content = [] then (st, stats)
      else
        let acc1 : SysState × Stats :=
          if p ∈ modified then
            let r := deleteChunksByFile repoName p st.store
            ({ st with store := r.1 },
             { stats with chunksDeleted := stats.chunksDeleted + r.2
                          filesModified := stats.filesModified + 1 })
          else (st, { stats with filesAdded := stats.filesAdded + 1 })
        let chunks := parseFile ecfg env.parserAvail (env.treeOf content)
          content p repoName currentCommit lang
        if chunks = [] then acc1
        else
          ({ acc1.1 with store := upsertChunks acc1.1.store chunks },
           { acc1.2 with chunksAdded := acc1.2.chunksAdded + chunks.length
                         filesProcessed := acc1.2.filesProcessed + 1 })

/-- The skip check of process_repository (line 114). -/
def skipCheck (cfg : RepoCfg) (env : IngestEnv) (force : Bool)
    (st : SysState) : Bool :=
  force = false ∧ (lookupState cfg.name st.states).isSome ∧ env.hasChanges = false

/-- old_commit = state.last_commit_hash if state and not force else None. -/
def oldCommitOf (cfg : RepoCfg) (force : Bool) (st : SysState) : Option Str :=
  match lookupState cfg.name st.states with
  | some s => if force then none else s.lastCommitHash
  | none => none

/-- process_repository (src/ingestion_service.py lines 73-198).  A git
failure raises out of the function (caught by the caller); per-file errors
are absorbed inside the loop; the final state write never raises. -/
def processRepository (cfg : RepoCfg) (env : IngestEnv) (force : Bool)
    (st : SysState) : Except Str Stats × SysState :=
  if env.gitOk = false then (.error "git error".toList, st)
  else if skipCheck cfg env force st then (.ok zeroStats, st)
  else
    let changed := getChangedFiles cfg env.git (oldCommitOf cfg force st)
    let added := changed.1
    let modified := changed.2.1
    let deleted := changed.2.2
    let acc1 := deleted.foldl (deleteFileStep cfg.name) (st, zeroStats)
    let acc2 := (added ++ modified).foldl
      (processFileStep env.ecfg cfg.name env.currentCommit env modified) acc1
    let st2 := acc2.1
    let stats := acc2.2
    let newState : RepoState :=
      { repoName := cfg.name
        lastCommitHash := some env.currentCommit
        totalChunks := (stats.chunksAdded : Int) - (stats.chunksDeleted : Int)
        totalFiles := stats.filesProcessed }
    let states' := insertState cfg.name newState st2.states
    (.ok stats,
     { store := st2.store, states := states'
       disk := saveStates env.saveOk states' st2.disk })

/-- reset_repository (src/ingestion_service.py lines 249-265): delete the
repository's chunks, then remove and persist the state entry only when one
exists. -/
def resetRepository (name : Str) (saveOk : Bool) (st : SysState) : SysState :=
  let store' := (deleteChunksByRepo name st.store).1
  if name ∈ st.states.map (·.1) then
    let states' := eraseState name st.states
    { store := store', states := states'
      disk := saveStates saveOk states' st.disk }
  else { st with store := store' }

/-- Sum of len(line) + 1 over a list of lines, the size measure used by
_simple_chunking. -/
def lineSizes (xs : List Str) : Nat := (xs.map (fun l => l.length + 1)).sum

/-- Length of the longest line of the input. -/
def maxLineLen (xs : List Str) : Nat := (xs.map (·.length)).foldr max 0

/-- The bound actually maintained by the windowing loop's size variable:
the configured maximum, or the overlap budget plus one line, whichever is
larger. -/
def scBound (cfg : ExtractCfg) (lines : List Str) : Nat :=
  max cfg.maxChunkSize (cfg.chunkOverlap + maxLineLen lines + 1)

/-- A chunk's line range is 1-indexed, inclusive, within the file, and its
content is the literal text of those lines joined by newlines. -/
def chunkLines (lines : List Str) (c : CodeChunk) : Prop :=
  1 ≤ c.startLine ∧ c.startLine ≤ c.endLine ∧ c.endLine ≤ lines.length ∧
  c.content = joinLines (sliceLines lines (c.startLine - 1) (c.endLine - 1))

/-- Everything the development needs to know about one emitted windowing
chunk. -/
def scChunkOk (cfg : ExtractCfg) (lines : List Str)
    (path repo commit : Str) (c : CodeChunk) : Prop :=
  chunkLines lines c ∧ c.content.length < scBound cfg lines ∧
  c.repoName = repo ∧ c.filePath = path ∧ c.commitHash = commit ∧
  c.id = chunkIdKey repo path (c.startLine - 1) commit

/-- Loop invariant of _simple_chunking at position `i`. -/
def scInv (cfg : ExtractCfg) (lines : List Str) (path repo commit : Str)
    (i : Nat) (st : SCSt) : Prop :=
  st.start ≤ i ∧ i ≤ lines.length ∧
  st.cur = (lines.drop st.start).take (i - st.start) ∧
  st.size = lineSizes st.cur ∧
  st.size ≤ scBound cfg lines ∧
  (∀ c ∈ st.chunks, scChunkOk cfg lines path repo commit c)

/-- a occurs as a contiguous substring of b. -/
def SubStr (a b : Str) : Prop := ∃ u v, b = u ++ a ++ v

/-- Well-formedness of a tree-sitter node with respect to a file of `n`
lines, as tree-sitter guarantees it: the row range is inside the file and
contains every child's row range. -/
inductive WF (n : Nat) : CSNode → Prop where
  | mk : ∀ (k : Str) (sr er sb eb : Nat) (cs : List CSNode),
      sr ≤ er → er < n →
      (∀ c ∈ cs, sr ≤ c.startRow ∧ c.endRow ≤ er) →
      (∀ c ∈ cs, WF n c) →
      WF n (.mk k sr er sb eb cs)

/-- Everything the development needs to know about one structural chunk. -/
def stChunkOk (lines : List Str) (path repo commit : Str)
    (c : CodeChunk) : Prop :=
  chunkLines lines c ∧ c.repoName = repo ∧ c.filePath = path ∧
  c.commitHash = commit ∧
  c.id = chunkIdKey repo path (c.startLine - 1) commit

/-! Concrete scenarios used by counterexamples and witnesses. -/

/-- A C#-only repository configuration with no exclusions. -/
def cfgCS : RepoCfg :=
  ⟨"repo".toList, "main".toList, "repo".toList, true, [.csharp], []⟩

/-- A python-only repository configuration named r. -/
def cfgPy : RepoCfg :=
  ⟨"r".toList, "main".toList, "r".toList, true, [.python], []⟩

/-- A git environment whose diff renames a.cs to b.txt. -/
def envRename : GitEnv :=
  ⟨[], some [⟨"R".toList, some "a.cs".toList, "b.txt".toList⟩]⟩

/-- Default chunking settings (max_chunk_size 1000, chunk_overlap 200). -/
def ecfg0 : ExtractCfg := ⟨1000, 200⟩

/-- A stale stored chunk of repository r, file f.py, commit c1. -/
def staleChunk1 : CodeChunk :=
  ⟨"id-stale-1".toList, "r".toList, "f.py".toList, .python, "old a".toList,
   1, 1, "c1".toList, "simple_chunk".toList, none, none, 5⟩

/-- A second stale stored chunk of the same file and commit. -/
def staleChunk2 : CodeChunk :=
  ⟨"id-stale-2".toList, "r".toList, "f.py".toList, .python, "old b".toList,
   2, 2, "c1".toList, "simple_chunk".toList, none, none, 5⟩

/-- The stored RepositoryState of r at commit c1. -/
def stateR1 : RepoState := ⟨"r".toList, some "c1".toList, 2, 1⟩

/-- System state holding the two stale chunks and the c1 state for r. -/
def sysStale : SysState :=
  ⟨[staleChunk1, staleChunk2], [("r".toList, stateR1)], [("r".toList, stateR1)]⟩

/-- Pass environment in which f.py was modified to be empty: the diff
reports it modified, and reading it back yields the empty string. -/
def envEmptyMod : IngestEnv :=
  { gitOk := true, hasChanges := true, currentCommit := "c2".toList
    git := ⟨[], some [⟨"M".toList, some "f.py".toList, "f.py".toList⟩]⟩
    fileContent := fun p => if p = "f.py".toList then some [] else none
    parserAvail := false, treeOf := fun _ => none
    saveOk := true, ecfg := ecfg0 }

/-- Pass environment with no changes to ingest whose state-file write
fails. -/
def envSaveFail : IngestEnv :=
  { gitOk := true, hasChanges := true, currentCommit := "c2".toList
    git := ⟨[], some []⟩
    fileContent := fun _ => none
    parserAvail := false, treeOf := fun _ => none
    saveOk := false, ecfg := ecfg0 }

/-- A git environment with one admissible file whose diff computation
fails. -/
def envDiffFail : GitEnv := ⟨["a.cs".toList], none⟩

/-- Pass environment in which f.py was modified to non-empty content. -/
def envNonemptyMod : IngestEnv :=
  { gitOk := true, hasChanges := true, currentCommit := "c2".toList
    git := ⟨[], some [⟨"M".toList, some "f.py".toList, "f.py".toList⟩]⟩
    fileContent := fun p => if p = "f.py".toList then some "x = 1".toList else none
    parserAvail := false, treeOf := fun _ => none
    saveOk := true, ecfg := ecfg0 }

/-! ### Helper lemmas -/

theorem mem_insertOnce {p x : Str} {s : List Str} (h : p ∈ insertOnce x s) :
    p = x ∨ p ∈ s := by
  unfold insertOnce at h
  split at h
  · exact Or.inr h
  · rcases List.mem_append.1 h with h | h
    · exact Or.inr h
    · exact Or.inl (by simpa using h)

theorem lookupState_cons (n : Str) (p : Str × RepoState)
    (t : List (Str × RepoState)) :
    lookupState n (p :: t) = if p.1 = n then some p.2 else lookupState n t := by
  by_cases h : p.1 = n
  · rw [if_pos h]
    unfold lookupState
    rw [List.find?_cons_of_pos _ (by simpa using h)]
    rfl
  · rw [if_neg h]
    unfold lookupState
    rw [List.find?_cons_of_neg _ (by simpa using h)]

theorem eraseState_cons (n : Str) (p : Str × RepoState)
    (t : List (Str × RepoState)) :
    eraseState n (p :: t) =
      if p.1 = n then eraseState n t else p :: eraseState n t := by
  by_cases h : p.1 = n
  · rw [if_pos h]
    unfold eraseState
    rw [List.filter_cons_of_neg (by simpa using h)]
  · rw [if_neg h]
    unfold eraseState
    rw [List.filter_cons_of_pos (by simpa using h)]

theorem lookupState_insert_self (n : Str) (v : RepoState)
    (m : List (Str × RepoState)) :
    lookupState n (insertState n v m) = some v := by
  unfold insertState
  split
  next hany =>
    induction m with
    | nil => simp at hany
    | cons p t ih =>
      by_cases h : p.1 = n
      · simp [List.map_cons, if_pos h, lookupState_cons]
      · simp only [List.any_cons, Bool.or_eq_true, decide_eq_true_eq] at hany
        have hany' : t.any (fun q => decide (q.1 = n)) = true := by
          rcases hany with hc | hc
          · exact absurd hc h
          · exact hc
        simp only [List.map_cons, if_neg h, lookupState_cons, ih hany']
  next =>
    induction m with
    | nil => simp [lookupState_cons, lookupState]
    | cons p t ih =>
      next hany =>
      by_cases h : p.1 = n
      · exact absurd (by simp [List.any_cons, h]) hany
      · have hany' : ¬ t.any (fun q => decide (q.1 = n)) = true := by
          intro hc
          exact hany (by simp [List.any_cons, hc])
        have := ih hany'
        simpa [List.cons_append, lookupState_cons, h] using this

theorem lookupState_erase_self (n : Str) (m : List (Str × RepoState)) :
    lookupState n (eraseState n m) = none := by
  induction m with
  | nil => simp [eraseState, lookupState]
  | cons p t ih =>
    rw [eraseState_cons]
    by_cases h : p.1 = n
    · rwa [if_pos h]
    · rw [if_neg h, lookupState_cons, if_neg h]
      exact ih

theorem lookupState_erase_other (n m' : Str) (hne : m' ≠ n)
    (m : List (Str × RepoState)) :
    lookupState m' (eraseState n m) = lookupState m' m := by
  induction m with
  | nil => simp [eraseState]
  | cons p t ih =>
    rw [eraseState_cons, lookupState_cons]
    by_cases h : p.1 = n
    · rw [if_pos h]
      have h2 : ¬ p.1 = m' := by
        rw [h]; exact fun hc => hne hc.symm
      rw [if_neg h2]
      exact ih
    · rw [if_neg h, lookupState_cons]
      by_cases h2 : p.1 = m'
      · rw [if_pos h2, if_pos h2]
      · rw [if_neg h2, if_neg h2]
        exact ih

theorem lookupState_none_keys {n : Str} {m : List (Str × RepoState)}
    (h : lookupState n m = none) : n ∉ m.map (·.1) := by
  induction m with
  | nil => simp
  | cons p t ih =>
    rw [lookupState_cons] at h
    by_cases hp : p.1 = n
    · rw [if_pos hp] at h; exact absurd h (by simp)
    · rw [if_neg hp] at h
      simp only [List.map_cons, List.mem_cons]
      rintro (hc | hc)
      · exact hp hc.symm
      · exact ih h hc

/-- Folding the deleted-files loop never touches the states map or disk. -/
theorem deleteFold_frame (n : Str) (l : List Str) (st : SysState) (s : Stats) :
    (l.foldl (deleteFileStep n) (st, s)).1.states = st.states ∧
    (l.foldl (deleteFileStep n) (st, s)).1.disk = st.disk := by
  induction l generalizing st s with
  | nil => exact ⟨rfl, rfl⟩
  | cons p t ih => exact ih _ _

theorem processFileStep_states (e : ExtractCfg) (n cm : Str) (env : IngestEnv)
    (mfd : List Str) (acc : SysState × Stats) (p : Str) :
    (processFileStep e n cm env mfd acc p).1.states = acc.1.states ∧
    (processFileStep e n cm env mfd acc p).1.disk = acc.1.disk := by
  unfold processFileStep
  cases detectLanguage p with
  | none => exact ⟨rfl, rfl⟩
  | some lang =>
    cases env.fileContent p with
    | none => exact ⟨rfl, rfl⟩
    | some content =>
      by_cases hc : content = []
      · simp [hc]
      · simp only [hc, if_false, reduceIte]
        by_cases hm : p ∈ mfd <;> simp [hm] <;> split <;> simp

/-- Folding the per-file loop never touches the states map or disk. -/
theorem processFold_frame (e : ExtractCfg) (n cm : Str) (env : IngestEnv)
    (mfd : List Str) (l : List Str) (acc : SysState × Stats) :
    (l.foldl (processFileStep e n cm env mfd) acc).1.states = acc.1.states ∧
    (l.foldl (processFileStep e n cm env mfd) acc).1.disk = acc.1.disk := by
  induction l generalizing acc with
  | nil => exact ⟨rfl, rfl⟩
  | cons p t ih =>
    have h1 := processFileStep_states e n cm env mfd acc p
    have h2 := ih (processFileStep e n cm env mfd acc p)
    exact ⟨h2.1.trans h1.1, h2.2.trans h1.2⟩

/-- Splitting at a separator that occurs in neither left part is
unambiguous. -/
theorem sep_split {a b x y : Str} (ha : ':' ∉ a) (hb : ':' ∉ b)
    (h : a ++ ':' :: x = b ++ ':' :: y) : a = b ∧ x = y := by
  induction a generalizing b with
  | nil =>
    cases b with
    | nil => simpa using h
    | cons c t =>
      simp only [List.nil_append, List.cons_append, List.cons.injEq] at h
      exact absurd (h.1 ▸ List.mem_cons_self c t) hb
  | cons c t ih =>
    cases b with
    | nil =>
      simp only [List.nil_append, List.cons_append, List.cons.injEq] at h
      exact absurd (h.1.symm ▸ List.mem_cons_self c t) ha
    | cons d u =>
      simp only [List.cons_append, List.cons.injEq] at h
      have := ih (fun hc => ha (List.mem_cons_of_mem c hc))
        (fun hc => hb (List.mem_cons_of_mem d hc)) h.2
      exact ⟨by rw [h.1, this.1], this.2⟩

theorem digitChar_ne_colon {n : Nat} (h : n < 10) : digitChar n ≠ ':' := by
  interval_cases n <;> decide

theorem natDigitsAux_colon (fuel n : Nat) (acc : Str) (hacc : ':' ∉ acc) :
    ':' ∉ natDigitsAux fuel n acc := by
  induction fuel generalizing n acc with
  | zero => exact hacc
  | succ fuel ih =>
    unfold natDigitsAux
    split
    next h =>
      intro hc
      rcases List.mem_cons.1 hc with hc | hc
      · exact digitChar_ne_colon h hc.symm
      · exact hacc hc
    next h =>
      refine ih (n / 10) _ ?_
      intro hc
      rcases List.mem_cons.1 hc with hc | hc
      · exact digitChar_ne_colon (Nat.mod_lt _ (by norm_num)) hc.symm
      · exact hacc hc

theorem natDigits_colon (n : Nat) : ':' ∉ natDigits n :=
  natDigitsAux_colon _ _ _ (by simp)

/-- The identity key determines path and start line once repository and
commit are fixed, because a path cannot contain the digits-only start-line
field's separator ambiguity: splitting at the colon before the digit
string is unambiguous. -/
theorem chunkIdKey_inj_path_line {r p1 p2 c : Str} {l1 l2 : Nat}
    (h : chunkIdKey r p1 l1 c = chunkIdKey r p2 l2 c) :
    p1 = p2 ∧ natDigits l1 = natDigits l2 := by
  unfold chunkIdKey at h
  have h1 : r ++ ':' :: (p1 ++ ':' :: (natDigits l1 ++ ':' :: c))
      = r ++ ':' :: (p2 ++ ':' :: (natDigits l2 ++ ':' :: c)) := by
    simpa [List.append_assoc, List.cons_append] using h
  have h2 : p1 ++ ':' :: (natDigits l1 ++ ':' :: c)
      = p2 ++ ':' :: (natDigits l2 ++ ':' :: c) :=
    (List.cons.inj (List.append_cancel_left h1)).2
  have h3 : c.reverse ++ ':' :: ((natDigits l1).reverse ++ ':' :: p1.reverse)
      = c.reverse ++ ':' :: ((natDigits l2).reverse ++ ':' :: p2.reverse) := by
    have := congrArg List.reverse h2
    simpa [List.reverse_append, List.append_assoc, List.cons_append] using this
  have h4 : (natDigits l1).reverse ++ ':' :: p1.reverse
      = (natDigits l2).reverse ++ ':' :: p2.reverse :=
    (List.cons.inj (List.append_cancel_left h3)).2
  have h6 := sep_split
    (fun hc => natDigits_colon l1 (List.mem_reverse.1 hc))
    (fun hc => natDigits_colon l2 (List.mem_reverse.1 hc)) h4
  refine ⟨?_, ?_⟩
  · have := congrArg List.reverse h6.2
    simpa using this
  · have := congrArg List.reverse h6.1
    simpa using this

theorem chunkIdKey_ne_of_path {r p1 p2 c : Str} {l1 l2 : Nat}
    (hne : p1 ≠ p2) : chunkIdKey r p1 l1 c ≠ chunkIdKey r p2 l2 c :=
  fun h => hne (chunkIdKey_inj_path_line h).1

theorem lookupState_eq_none_of_not_mem {n : Str}
    {m : List (Str × RepoState)} (h : n ∉ m.map (·.1)) :
    lookupState n m = none := by
  induction m with
  | nil => rfl
  | cons p t ih =>
    rw [lookupState_cons]
    simp only [List.map_cons, List.mem_cons] at h
    push_neg at h
    rw [if_neg (fun hc => h.1 hc.symm)]
    exact ih h.2

/-! ### Claim C7: diff failure degrades to first-run behavior -/

/-- Claim C7: if the diff computation between the previous marker and the
current head fails, get_changed_files returns the first-run result: every
admissible path of the current snapshot as added, and empty modified and
deleted sets. -/
theorem C7_diff_failure_first_run (cfg : RepoCfg) (env : GitEnv) (c : Str)
    (hfail : env.diffResult = none) :
    getChangedFiles cfg env (some c) = (allAdmissible cfg env.snapshot, [], [])
      ∧ getChangedFiles cfg env (some c) = getChangedFiles cfg env none := by
  unfold getChangedFiles
  rw [hfail]
  exact ⟨rfl, rfl⟩

theorem C7_witness :
    envDiffFail.diffResult = none ∧
    (getChangedFiles cfgCS envDiffFail (some "c1".toList)
        = (allAdmissible cfgCS envDiffFail.snapshot, [], [])
      ∧ getChangedFiles cfgCS envDiffFail (some "c1".toList)
        = getChangedFiles cfgCS envDiffFail none) :=
  ⟨rfl, C7_diff_failure_first_run cfgCS envDiffFail "c1".toList rfl⟩

/-! ### Claim C2: failure of the final state write -/

/-- Claim C2 counterexample: with a failing state write, process_repository
still returns ok (no error is surfaced to the caller), while the in-memory
state map has already been overwritten with the new commit's state; only
the on-disk record keeps the old state. -/
theorem C2_counterexample :
    (processRepository cfgPy envSaveFail false sysStale).1 = .ok zeroStats ∧
    (processRepository cfgPy envSaveFail false sysStale).2.disk
      = [("r".toList, stateR1)] ∧
    lookupState "r".toList (processRepository cfgPy envSaveFail false sysStale).2.states
      = some ⟨"r".toList, some "c2".toList, 0, 0⟩ := by
  refine ⟨rfl, rfl, ?_⟩
  rfl

/-- Claim C2 (amended): a failure of the final state write is caught and
logged inside _save_states: process_repository returns its statistics with
no error, the on-disk state file keeps its previous contents, and the
in-memory map already holds a new state carrying the current commit. -/
theorem C2_amended_save_failure (cfg : RepoCfg) (env : IngestEnv)
    (force : Bool) (st : SysState)
    (hgit : env.gitOk = true) (hsave : env.saveOk = false)
    (hskip : skipCheck cfg env force st = false) :
    (∃ s, (processRepository cfg env force st).1 = .ok s) ∧
    (processRepository cfg env force st).2.disk = st.disk ∧
    ∃ ns, lookupState cfg.name (processRepository cfg env force st).2.states
        = some ns ∧ ns.lastCommitHash = some env.currentCommit := by
  have hne : ¬ env.gitOk = false := by rw [hgit]; simp
  have hsk : ¬ skipCheck cfg env force st = true := by rw [hskip]; simp
  unfold processRepository
  rw [if_neg hne, if_neg hsk]
  refine ⟨⟨_, rfl⟩, ?_, ?_⟩
  · show saveStates env.saveOk _ _ = st.disk
    rw [saveStates, if_neg (by rw [hsave]; simp)]
    rw [(processFold_frame _ _ _ _ _ _ _).2, (deleteFold_frame _ _ _ _).2]
  · exact ⟨_, lookupState_insert_self _ _ _, rfl⟩

theorem C2_witness :
    envSaveFail.gitOk = true ∧ envSaveFail.saveOk = false ∧
    skipCheck cfgPy envSaveFail false sysStale = false ∧
    ((∃ s, (processRepository cfgPy envSaveFail false sysStale).1 = .ok s) ∧
     (processRepository cfgPy envSaveFail false sysStale).2.disk = sysStale.disk ∧
     ∃ ns, lookupState cfgPy.name
         (processRepository cfgPy envSaveFail false sysStale).2.states
           = some ns ∧ ns.lastCommitHash = some envSaveFail.currentCommit) :=
  ⟨rfl, rfl, by decide,
   C2_amended_save_failure cfgPy envSaveFail false sysStale rfl rfl (by decide)⟩

/-! ### Claim C10: reset_repository frame conditions -/

/-- Claim C10: reset_repository deletes exactly the chunks of the named
repository and removes only that repository's state entry, leaving every
other repository's chunks and state entries unchanged; when the name has
no state entry and no chunks, nothing changes at all. -/
theorem C10_reset_exact (name : Str) (saveOk : Bool) (st : SysState) :
    (∀ c ∈ (resetRepository name saveOk st).store,
        c ∈ st.store ∧ c.repoName ≠ name) ∧
    (∀ c ∈ st.store, c.repoName ≠ name →
        c ∈ (resetRepository name saveOk st).store) ∧
    lookupState name (resetRepository name saveOk st).states = none ∧
    (∀ m, m ≠ name →
        lookupState m (resetRepository name saveOk st).states
          = lookupState m st.states) ∧
    (lookupState name st.states = none →
      (∀ c ∈ st.store, c.repoName ≠ name) →
      resetRepository name saveOk st = st) := by
  have hstore : ∀ c ∈ (resetRepository name saveOk st).store,
      c ∈ st.store ∧ c.repoName ≠ name := by
    intro c hc
    have : (resetRepository name saveOk st).store
        = st.store.filter (fun c => ¬ c.repoName = name) := by
      unfold resetRepository deleteChunksByRepo
      split <;> rfl
    rw [this] at hc
    have := List.mem_filter.1 hc
    exact ⟨this.1, by simpa using this.2⟩
  have hstore2 : ∀ c ∈ st.store, c.repoName ≠ name →
      c ∈ (resetRepository name saveOk st).store := by
    intro c hc hne
    have : (resetRepository name saveOk st).store
        = st.store.filter (fun c => ¬ c.repoName = name) := by
      unfold resetRepository deleteChunksByRepo
      split <;> rfl
    rw [this]
    exact List.mem_filter.2 ⟨hc, by simpa using hne⟩
  refine ⟨hstore, hstore2, ?_, ?_, ?_⟩
  · unfold resetRepository
    split
    · exact lookupState_erase_self _ _
    · next hmem => exact lookupState_eq_none_of_not_mem hmem
  · intro m hm
    unfold resetRepository
    split
    · exact lookupState_erase_other _ _ hm _
    · rfl
  · intro hnone hall
    have hmem : ¬ name ∈ st.states.map (·.1) := lookupState_none_keys hnone
    have hfil : st.store.filter (fun c => ¬ c.repoName = name) = st.store :=
      List.filter_eq_self.2 (fun c hc => by simpa using hall c hc)
    unfold resetRepository deleteChunksByRepo
    rw [if_neg hmem]
    show ({ st with store := st.store.filter _ } : SysState) = st
    rw [hfil]

theorem C10_witness :
    resetRepository "absent".toList true sysStale = sysStale :=
  (C10_reset_exact "absent".toList true sysStale).2.2.2.2
    (by decide) (by decide)

/-! ### Claim C6: admission of the paths reported by the change detector -/

/-- Claim C6 counterexample: a rename from a.cs to b.txt puts b.txt into
the added set although b.txt fails the path-admission predicate — only the
rename's old path is checked. -/
theorem C6_counterexample :
    "b.txt".toList ∈ (getChangedFiles cfgCS envRename (some "c1".toList)).1 ∧
    shouldProcessFile cfgCS "b.txt".toList = false := by
  decide

/-- The diff-items fold only ever adds admissible paths to the three sets,
except for the new half of a rename, which is admitted on the strength of
its old path alone. -/
theorem diffFold_admissible (cfg : RepoCfg) (items : List DiffItem)
    (hR : ∀ item ∈ items, item.changeType = "R".toList →
      ∃ a, item.aPath = some a ∧ a ≠ []) :
    ∀ (l : List DiffItem), (∀ i ∈ l, i ∈ items) →
    ∀ acc : List Str × List Str × List Str,
    ((∀ p ∈ acc.1, shouldProcessFile cfg p = true ∨
        ∃ item ∈ items, item.changeType = "R".toList ∧ p = item.bPath ∧
          ∃ a, item.aPath = some a ∧ shouldProcessFile cfg a = true) ∧
     (∀ p ∈ acc.2.1, shouldProcessFile cfg p = true) ∧
     (∀ p ∈ acc.2.2, shouldProcessFile cfg p = true)) →
    ((∀ p ∈ (l.foldl (diffStep cfg) acc).1, shouldProcessFile cfg p = true ∨
        ∃ item ∈ items, item.changeType = "R".toList ∧ p = item.bPath ∧
          ∃ a, item.aPath = some a ∧ shouldProcessFile cfg a = true) ∧
     (∀ p ∈ (l.foldl (diffStep cfg) acc).2.1, shouldProcessFile cfg p = true) ∧
     (∀ p ∈ (l.foldl (diffStep cfg) acc).2.2, shouldProcessFile cfg p = true)) := by
  intro l
  induction l with
  | nil => intro _ acc hacc; exact hacc
  | cons item rest ih =>
    intro hsub acc hacc
    have hitem : item ∈ items := hsub item (List.mem_cons_self _ _)
    have hsub' : ∀ i ∈ rest, i ∈ items :=
      fun i hi => hsub i (List.mem_cons_of_mem _ hi)
    refine ih hsub' _ ?_
    unfold diffStep
    by_cases hsp : shouldProcessFile cfg
        (match item.aPath with
         | some a => if a = [] then item.bPath else a
         | none => item.bPath) = true
    · rw [if_neg (by simpa using hsp)]
      by_cases hA : item.changeType = "A".toList
      · rw [if_pos hA]
        refine ⟨?_, hacc.2.1, hacc.2.2⟩
        intro p hp
        rcases mem_insertOnce hp with hp | hp
        · subst hp; exact Or.inl hsp
        · exact hacc.1 p hp
      · rw [if_neg hA]
        by_cases hM : item.changeType = "M".toList
        · rw [if_pos hM]
          refine ⟨hacc.1, ?_, hacc.2.2⟩
          intro p hp
          rcases mem_insertOnce hp with hp | hp
          · subst hp; exact hsp
          · exact hacc.2.1 p hp
        · rw [if_neg hM]
          by_cases hD : item.changeType = "D".toList
          · rw [if_pos hD]
            refine ⟨hacc.1, hacc.2.1, ?_⟩
            intro p hp
            rcases mem_insertOnce hp with hp | hp
            · subst hp; exact hsp
            · exact hacc.2.2 p hp
          · rw [if_neg hD]
            by_cases hRt : item.changeType = "R".toList
            · rw [if_pos hRt]
              rcases hR item hitem hRt with ⟨a, hap, hane⟩
              have hfp : (match item.aPath with
                  | some a => if a = [] then item.bPath else a
                  | none => item.bPath) = a := by
                rw [hap]; exact if_neg hane
              rw [hfp] at hsp
              refine ⟨?_, hacc.2.1, ?_⟩
              · intro p hp
                rcases mem_insertOnce hp with hp | hp
                · subst hp
                  exact Or.inr ⟨item, hitem, hRt, rfl, a, hap, hsp⟩
                · exact hacc.1 p hp
              · intro p hp
                rcases mem_insertOnce hp with hp | hp
                · subst hp
                  rw [hap]
                  exact hsp
                · exact hacc.2.2 p hp
            · rw [if_neg hRt]
              exact hacc
    · rw [if_pos (by simpa using hsp)]
      exact hacc

/-- Claim C6 (amended): when the diff succeeds and every rename item
carries a non-empty old path, every path in the modified and deleted sets
passes the path-admission predicate, and every path in the added set
either passes it or is the new half of a rename whose old path passes —
the detector checks only the old path of a rename. -/
theorem C6_amended_admission (cfg : RepoCfg) (env : GitEnv) (c : Str)
    (items : List DiffItem) (hd : env.diffResult = some items)
    (hR : ∀ item ∈ items, item.changeType = "R".toList →
      ∃ a, item.aPath = some a ∧ a ≠ []) :
    (∀ p ∈ (getChangedFiles cfg env (some c)).1,
        shouldProcessFile cfg p = true ∨
        ∃ item ∈ items, item.changeType = "R".toList ∧ p = item.bPath ∧
          ∃ a, item.aPath = some a ∧ shouldProcessFile cfg a = true) ∧
    (∀ p ∈ (getChangedFiles cfg env (some c)).2.1,
        shouldProcessFile cfg p = true) ∧
    (∀ p ∈ (getChangedFiles cfg env (some c)).2.2,
        shouldProcessFile cfg p = true) := by
  unfold getChangedFiles
  rw [hd]
  exact diffFold_admissible cfg items hR items (fun i hi => hi) ([], [], [])
    ⟨by simp, by simp, by simp⟩

theorem C6_witness :
    shouldProcessFile cfgCS "a.cs".toList = true :=
  (C6_amended_admission cfgCS envRename "c1".toList _ rfl
      (by decide)).2.2 "a.cs".toList (by decide)

/-! ### Claim C8: chunk identity -/

/-- Claim C8 counterexample: the identity function's colon-joined key is
ambiguous, so two distinct (repo, path, start, commit) tuples agreeing on
start line can produce the same key — and hence, under the deterministic
digest, the same identifier with certainty rather than distinct
identifiers with overwhelming probability. -/
theorem C8_counterexample :
    chunkIdKey "a:b".toList "c".toList 5 "h".toList
      = chunkIdKey "a".toList "b:c".toList 5 "h".toList ∧
    ¬ ("a:b".toList = "a".toList ∧ "c".toList = "b:c".toList) := by
  decide

/-- Claim C8 (amended): tuples agreeing on start line give distinct keys
whenever only the repository differs (path and commit fixed), and whenever
the repository and path fields are colon-free; since the fields are joined
by unescaped colons, other distinct tuples can share a key and then share
an identifier.  Identical content processed under two repository names
yields chunks with identical content and different keys. -/
theorem C8_amended_key_distinct :
    (∀ r1 r2 p c : Str, ∀ s : Nat, r1 ≠ r2 →
        chunkIdKey r1 p s c ≠ chunkIdKey r2 p s c) ∧
    (∀ r1 p1 c1 r2 p2 c2 : Str, ∀ s : Nat,
        ':' ∉ r1 → ':' ∉ r2 → ':' ∉ p1 → ':' ∉ p2 →
        chunkIdKey r1 p1 s c1 = chunkIdKey r2 p2 s c2 →
        r1 = r2 ∧ p1 = p2 ∧ c1 = c2) ∧
    ((parseFile ecfg0 false none "x = 1".toList "p".toList "r1".toList
        "cm".toList .python).map (·.content)
      = (parseFile ecfg0 false none "x = 1".toList "p".toList "r2".toList
        "cm".toList .python).map (·.content) ∧
     (parseFile ecfg0 false none "x = 1".toList "p".toList "r1".toList
        "cm".toList .python).map (·.id)
      ≠ (parseFile ecfg0 false none "x = 1".toList "p".toList "r2".toList
        "cm".toList .python).map (·.id) ∧
     (parseFile ecfg0 false none "x = 1".toList "p".toList "r1".toList
        "cm".toList .python).length = 1) := by
  refine ⟨?_, ?_, by decide, by decide, by decide⟩
  · intro r1 r2 p c s hne h
    unfold chunkIdKey at h
    have h1 : r1 ++ ':' :: (p ++ ':' :: (natDigits s ++ ':' :: c))
        = r2 ++ ':' :: (p ++ ':' :: (natDigits s ++ ':' :: c)) := by
      simpa [List.append_assoc, List.cons_append] using h
    exact hne (List.append_cancel_right h1)
  · intro r1 p1 c1 r2 p2 c2 s hr1 hr2 hp1 hp2 h
    unfold chunkIdKey at h
    have h1 : r1 ++ ':' :: (p1 ++ ':' :: (natDigits s ++ ':' :: c1))
        = r2 ++ ':' :: (p2 ++ ':' :: (natDigits s ++ ':' :: c2)) := by
      simpa [List.append_assoc, List.cons_append] using h
    have h2 := sep_split hr1 hr2 h1
    have h3 := sep_split hp1 hp2 h2.2
    have h4 := (List.cons.inj (List.append_cancel_left h3.2)).2
    exact ⟨h2.1, h3.1, h4⟩

theorem C8_witness :
    chunkIdKey "r1".toList "p".toList 0 "cm".toList
      ≠ chunkIdKey "r2".toList "p".toList 0 "cm".toList :=
  C8_amended_key_distinct.1 "r1".toList "r2".toList "p".toList "cm".toList 0
    (by decide)

/-! ### Windowing-strategy machinery -/

theorem lineSizes_append (a b : List Str) :
    lineSizes (a ++ b) = lineSizes a + lineSizes b := by
  simp [lineSizes]

theorem lineSizes_reverse (a : List Str) :
    lineSizes a.reverse = lineSizes a := by
  simp [lineSizes, List.map_reverse, List.sum_reverse]

theorem joinLines_length {xs : List Str} (h : xs ≠ []) :
    (joinLines xs).length + 1 = lineSizes xs := by
  induction xs with
  | nil => exact absurd rfl h
  | cons l t ih =>
    cases t with
    | nil => simp [joinLines, lineSizes]
    | cons l' t' =>
      have hx := ih (by simp)
      simp only [joinLines, lineSizes, List.map_cons, List.sum_cons,
        List.length_append, List.length_cons] at hx ⊢
      omega

theorem length_le_maxLineLen {l : Str} {xs : List Str} (h : l ∈ xs) :
    l.length ≤ maxLineLen xs := by
  induction xs with
  | nil => simp at h
  | cons x t ih =>
    rcases List.mem_cons.1 h with h | h
    · subst h
      simp only [maxLineLen, List.map_cons, List.foldr_cons]
      omega
    · have := ih h
      simp only [maxLineLen, List.map_cons, List.foldr_cons] at this ⊢
      omega

theorem overlapTake_spec (o : Nat) (rev : List Str) :
    ∀ (acc : List Str) (n : Nat), n ≤ o →
    ∃ j, j ≤ rev.length ∧
      (overlapTake o rev acc n).1 = (rev.take j).reverse ++ acc ∧
      (overlapTake o rev acc n).2 = n + lineSizes (rev.take j) ∧
      (overlapTake o rev acc n).2 ≤ o := by
  induction rev with
  | nil =>
    intro acc n hn
    exact ⟨0, Nat.le_refl _, by simp [overlapTake],
      by simp [overlapTake, lineSizes], by simpa [overlapTake] using hn⟩
  | cons l rest ih =>
    intro acc n hn
    by_cases hc : n + (l.length + 1) ≤ o
    · rcases ih (l :: acc) (n + (l.length + 1)) hc with ⟨j, hj, h1, h2, h3⟩
      refine ⟨j + 1, by simpa using Nat.succ_le_succ hj, ?_, ?_, ?_⟩
      · simp only [overlapTake, if_pos hc]
        rw [h1]
        simp [List.take_succ_cons]
      · simp only [overlapTake, if_pos hc]
        rw [h2]
        simp only [List.take_succ_cons, lineSizes, List.map_cons, List.sum_cons]
        omega
      · simp only [overlapTake, if_pos hc]
        exact h3
    · refine ⟨0, Nat.zero_le _, ?_, ?_, ?_⟩
      · simp [overlapTake, if_neg hc]
      · simp [overlapTake, if_neg hc, lineSizes]
      · simp only [overlapTake, if_neg hc]
        exact hn

theorem reverse_take_reverse (l : List Str) (j : Nat) :
    (l.reverse.take j).reverse = l.drop (l.length - j) := by
  rw [← List.rtake_eq_reverse_take_reverse]
  rfl

/-- One loop iteration of _simple_chunking preserves the invariant. -/
theorem scStep_inv (cfg : ExtractCfg) (lines : List Str)
    (path repo commit : Str) (lang : Lang) (i : Nat) (st : SCSt) (line : Str)
    (hline : lines[i]? = some line)
    (hinv : scInv cfg lines path repo commit i st) :
    scInv cfg lines path repo commit (i + 1)
      (scStep cfg path repo commit lang st i line) := by
  obtain ⟨hsi, hil, hcur, hsz, hszB, hch⟩ := hinv
  have hiL : i < lines.length := (List.getElem?_eq_some.1 hline).1
  have hmem : line ∈ lines := List.getElem?_mem hline
  have hlineB : line.length + 1 ≤ scBound cfg lines := by
    have := length_le_maxLineLen hmem
    unfold scBound
    omega
  have hlineB2 : cfg.chunkOverlap + line.length + 1 ≤ scBound cfg lines := by
    have := length_le_maxLineLen hmem
    unfold scBound
    omega
  have append_ok : ∀ st' : SCSt,
      st'.start ≤ i →
      st'.cur = (lines.drop st'.start).take (i - st'.start) →
      st'.size = lineSizes st'.cur →
      st'.size + (line.length + 1) ≤ scBound cfg lines →
      (∀ c ∈ st'.chunks, scChunkOk cfg lines path repo commit c) →
      scInv cfg lines path repo commit (i + 1)
        ⟨st'.chunks, st'.cur ++ [line], st'.size + (line.length + 1), st'.start⟩ := by
    intro st' h1 h2 h3 h4 h5
    refine ⟨Nat.le_succ_of_le h1, hiL, ?_, ?_, h4, h5⟩
    · have hext : (lines.drop st'.start).take (i + 1 - st'.start)
          = (lines.drop st'.start).take (i - st'.start) ++ [line] := by
        have hstep : i + 1 - st'.start = (i - st'.start) + 1 := by omega
        rw [hstep, List.take_succ]
        congr 1
        rw [List.getElem?_drop]
        have hadd : st'.start + (i - st'.start) = i := by omega
        rw [hadd, hline]
        rfl
      rw [hext, h2]
    · rw [lineSizes_append, h3]
      simp [lineSizes]
  have hcurlen : st.cur.length = i - st.start := by
    rw [hcur]
    simp only [List.length_take, List.length_drop]
    omega
  unfold scStep
  dsimp only
  by_cases hclose : st.size + (line.length + 1) > cfg.maxChunkSize ∧ st.cur ≠ []
  · rw [if_pos hclose]
    -- the overlap walk: a suffix of the closed chunk within the budget
    rcases overlapTake_spec cfg.chunkOverlap st.cur.reverse [] 0
        (Nat.zero_le _) with ⟨j, hj, hov1, hov2, hovB⟩
    rw [List.length_reverse] at hj
    have hov1' : (overlapTake cfg.chunkOverlap st.cur.reverse [] 0).1
        = st.cur.drop (st.cur.length - j) := by
      rw [hov1, List.append_nil, reverse_take_reverse]
    have hovlen : (overlapTake cfg.chunkOverlap st.cur.reverse [] 0).1.length
        = j := by
      rw [hov1', List.length_drop]
      omega
    have hovsize : (overlapTake cfg.chunkOverlap st.cur.reverse [] 0).2
        = lineSizes (overlapTake cfg.chunkOverlap st.cur.reverse [] 0).1 := by
      rw [hov2, hov1, List.append_nil, lineSizes_reverse]
      omega
    have hjle : j ≤ i - st.start := by omega
    have hovcur : (overlapTake cfg.chunkOverlap st.cur.reverse [] 0).1
        = (lines.drop (i - j)).take j := by
      rw [hov1', hcurlen, hcur, List.drop_take, List.drop_drop]
      have e1 : i - st.start - (i - st.start - j) = j := by omega
      have e2 : st.start + (i - st.start - j) = i - j := by omega
      rw [e1, e2]
    have hstart1 : i - st.start ≥ 1 := by
      rcases Nat.eq_zero_or_pos (i - st.start) with h0 | h0
      · exfalso
        apply hclose.2
        rw [hcur, h0]
        rfl
      · exact h0
    have hcurne : st.cur ≠ [] := hclose.2
    -- the emitted chunk is well-formed
    have hchunk : scChunkOk cfg lines path repo commit
        { id := chunkIdKey repo path st.start commit
          repoName := repo, filePath := path, language := lang
          content := joinLines st.cur, startLine := st.start + 1, endLine := i
          commitHash := commit, chunkType := "simple_chunk".toList
          metaName := none, metaContext := none
          byteSize := (joinLines st.cur).length } := by
      have hjl := joinLines_length hcurne
      unfold scChunkOk chunkLines
      dsimp only
      refine ⟨⟨by omega, by omega, by omega, ?_⟩, by omega, rfl, rfl, rfl, by simp⟩
      show joinLines st.cur = joinLines (sliceLines lines (st.start + 1 - 1) (i - 1))
      unfold sliceLines
      have e3 : i - 1 + 1 - (st.start + 1 - 1) = i - st.start := by omega
      rw [e3, Nat.add_sub_cancel, ← hcur]
    have happly := append_ok
      ⟨st.chunks ++ [_], (overlapTake cfg.chunkOverlap st.cur.reverse [] 0).1,
       (overlapTake cfg.chunkOverlap st.cur.reverse [] 0).2,
       i - (overlapTake cfg.chunkOverlap st.cur.reverse [] 0).1.length⟩
      (by dsimp only; rw [hovlen]; omega)
      (by
        dsimp only
        rw [hovlen, hovcur]
        have e4 : i - (i - j) = j := by omega
        rw [e4])
      (by dsimp only; exact hovsize)
      (by
        dsimp only
        omega)
      (by
        intro c hc
        dsimp only at hc
        rcases List.mem_append.1 hc with hc | hc
        · exact hch c hc
        · rcases List.mem_singleton.1 hc with rfl
          exact hchunk)
    exact happly
  · rw [if_neg hclose]
    have hheadroom : st.size + (line.length + 1) ≤ scBound cfg lines := by
      rcases Decidable.not_and_iff_or_not.1 hclose with h | h
      · push_neg at h
        unfold scBound
        omega
      · push_neg at h
        have : st.size = 0 := by
          rw [hsz, h]
          rfl
        omega
    have := append_ok st hsi hcur hsz hheadroom hch
    exact this

/-- Running the loop to the end of the file preserves the invariant. -/
theorem scLoop_inv (cfg : ExtractCfg) (lines : List Str)
    (path repo commit : Str) (lang : Lang) :
    ∀ (rest : List Str) (i : Nat) (st : SCSt),
      rest = lines.drop i →
      scInv cfg lines path repo commit i st →
      scInv cfg lines path repo commit lines.length
        (scLoop cfg path repo commit lang i rest st) := by
  intro rest
  induction rest with
  | nil =>
    intro i st hr hinv
    have hge : lines.length ≤ i := by
      have := congrArg List.length hr
      simp only [List.length_nil, List.length_drop] at this
      omega
    have hi : i = lines.length := Nat.le_antisymm hinv.2.1 hge
    rw [← hi]
    exact hinv
  | cons l rest' ih =>
    intro i st hr hinv
    have hline : lines[i]? = some l := by
      have h0 : (lines.drop i)[0]? = some l := by
        rw [← hr]
        simp
      rw [List.getElem?_drop] at h0
      simpa using h0
    have hr' : rest' = lines.drop (i + 1) := by
      have := congrArg (List.drop 1) hr
      simp only [List.drop_drop] at this
      simpa using this
    exact ih (i + 1) _ hr' (scStep_inv cfg lines path repo commit lang i st l hline hinv)

theorem splitLines_ne_nil (s : Str) : splitLines s ≠ [] := by
  induction s with
  | nil => simp [splitLines]
  | cons c rest ih =>
    unfold splitLines
    by_cases h : c = '\n'
    · simp [h]
    · rw [if_neg h]
      cases hsr : splitLines rest with
      | nil => simp
      | cons hd tl => simp

theorem scLoop_cur_ne_nil (cfg : ExtractCfg) (path repo commit : Str)
    (lang : Lang) :
    ∀ (rest : List Str) (i : Nat) (st : SCSt), rest ≠ [] →
      (scLoop cfg path repo commit lang i rest st).cur ≠ [] := by
  intro rest
  induction rest with
  | nil => intro i st h; exact absurd rfl h
  | cons l rest' ih =>
    intro i st _
    cases rest' with
    | nil =>
      show (scStep cfg path repo commit lang st i l).cur ≠ []
      unfold scStep
      dsimp only
      simp
    | cons l' r2 => exact ih (i + 1) _ (by simp)

/-- Every chunk emitted by _simple_chunking is well-formed: 1-indexed
inclusive line range inside the file, content equal to those lines joined
by newlines, length below the loop's size bound, and the expected
repo/path/commit/identifier fields. -/
theorem simpleChunking_ok (cfg : ExtractCfg) (content : Str)
    (path repo commit : Str) (lang : Lang) :
    ∀ c ∈ simpleChunking cfg content path repo commit lang,
      scChunkOk cfg (splitLines content) path repo commit c := by
  intro c hc
  have hinit : scInv cfg (splitLines content) path repo commit 0 ⟨[], [], 0, 0⟩ :=
    ⟨Nat.le_refl _, Nat.zero_le _, rfl, rfl, Nat.zero_le _, by simp⟩
  have hfin := scLoop_inv cfg (splitLines content) path repo commit lang
    (splitLines content) 0 ⟨[], [], 0, 0⟩ rfl hinit
  obtain ⟨hsi, _, hcur, hsz, hszB, hch⟩ := hfin
  unfold simpleChunking at hc
  dsimp only at hc
  split at hc
  next hne =>
    rcases List.mem_append.1 hc with hc | hc
    · exact hch c hc
    · rcases List.mem_singleton.1 hc with rfl
      -- the flushed final chunk
      set lines := splitLines content with hlines
      set st := scLoop cfg path repo commit lang 0 lines ⟨[], [], 0, 0⟩ with hst
      have hjl := joinLines_length hne
      have hstart1 : lines.length - st.start ≥ 1 := by
        rcases Nat.eq_zero_or_pos (lines.length - st.start) with h0 | h0
        · exfalso
          apply hne
          rw [hcur, h0]
          rfl
        · exact h0
      unfold scChunkOk chunkLines
      dsimp only
      refine ⟨⟨by omega, by omega, by omega, ?_⟩, by omega, rfl, rfl, rfl, by simp⟩
      show joinLines st.cur
          = joinLines (sliceLines lines (st.start + 1 - 1) (lines.length - 1))
      unfold sliceLines
      have e3 : lines.length - 1 + 1 - (st.start + 1 - 1)
          = lines.length - st.start := by omega
      rw [e3, Nat.add_sub_cancel, ← hcur]
  next => exact hch c hc

/-- _simple_chunking always emits at least one chunk. -/
theorem simpleChunking_ne_nil (cfg : ExtractCfg) (content : Str)
    (path repo commit : Str) (lang : Lang) :
    simpleChunking cfg content path repo commit lang ≠ [] := by
  unfold simpleChunking
  dsimp only
  have hcur := scLoop_cur_ne_nil cfg path repo commit lang (splitLines content)
    0 ⟨[], [], 0, 0⟩ (splitLines_ne_nil content)
  rw [if_pos hcur]
  simp

/-! ### Claim C9: parse_file always returns at least one chunk -/

/-- Claim C9: for every content, path, repository, commit and language,
parse_file returns a non-empty chunk list: the windowing fallback runs
whenever the structural walk yields nothing or the parse fails, and the
windowing strategy always emits at least one chunk. -/
theorem C9_parse_file_nonempty (cfg : ExtractCfg) (parserAvail : Bool)
    (tree : Option CSNode) (content : Str) (path repo commit : Str)
    (lang : Lang) :
    parseFile cfg parserAvail tree content path repo commit lang ≠ [] := by
  have hs := simpleChunking_ne_nil cfg content path repo commit lang
  unfold parseFile
  split
  · cases tree with
    | none => exact hs
    | some t =>
      dsimp only
      split
      · exact hs
      · next hne => exact hne
  · exact hs

/-! ### Claim C4: chunk size bound of the windowing strategy -/

/-- Claim C4 counterexample: with max chunk size 5 and overlap 0, the input
whose first line has 7 characters produces two chunks; the first (not the
final one) has content length 7, exceeding the configured maximum of 5 —
a single line longer than the maximum is emitted unsplit. -/
theorem C4_counterexample :
    (simpleChunking ⟨5, 0⟩ "aaaaaaa\nb".toList "p".toList "r".toList
        "h".toList .python).map (fun c => c.content.length) = [7, 1] ∧
    (5 : Nat) < 7 := by
  decide

/-- Claim C4 (amended): every chunk produced by the windowing strategy has
content length below max(max_chunk_size, chunk_overlap + L + 1), where L is
the length of the longest input line; the configured maximum alone bounds a
chunk only when no single line exceeds it and the overlap seed plus the
following line stay within it. -/
theorem C4_amended_size_bound (cfg : ExtractCfg) (content : Str)
    (path repo commit : Str) (lang : Lang) (c : CodeChunk)
    (hmem : c ∈ simpleChunking cfg content path repo commit lang) :
    c.content.length < scBound cfg (splitLines content) :=
  (simpleChunking_ok cfg content path repo commit lang c hmem).2.1

theorem C4_witness :
    (⟨chunkIdKey "r".toList "p".toList 0 "h".toList, "r".toList, "p".toList,
        .python, "ab".toList, 1, 1, "h".toList, "simple_chunk".toList,
        none, none, 2⟩ : CodeChunk).content.length
      < scBound ecfg0 (splitLines "ab".toList) :=
  C4_amended_size_bound ecfg0 "ab".toList "p".toList "r".toList "h".toList
    .python _ (by decide)

/-! ### Structural-strategy machinery -/

theorem csnode_sizeOf_lt {c : CSNode} {cs : List CSNode} (hc : c ∈ cs)
    (k : Str) (sr er sb eb : Nat) :
    sizeOf c < sizeOf (CSNode.mk k sr er sb eb cs) := by
  have := List.sizeOf_lt_of_mem hc
  simp only [CSNode.mk.sizeOf_spec]
  omega

/-- Strong induction over syntax nodes along the child relation. -/
theorem CSNode.strongInd (P : CSNode → Prop)
    (h : ∀ (k : Str) (sr er sb eb : Nat) (cs : List CSNode),
      (∀ c ∈ cs, P c) → P (.mk k sr er sb eb cs)) :
    ∀ node, P node := by
  have haux : ∀ (N : Nat) (node : CSNode), sizeOf node ≤ N → P node := by
    intro N
    induction N with
    | zero =>
      intro node hn
      cases node with
      | mk k sr er sb eb cs =>
        simp only [CSNode.mk.sizeOf_spec] at hn
        omega
    | succ N ih =>
      intro node hn
      cases node with
      | mk k sr er sb eb cs =>
        refine h k sr er sb eb cs (fun c hc => ih c ?_)
        have := csnode_sizeOf_lt hc k sr er sb eb
        omega
  exact fun node => haux (sizeOf node) node (Nat.le_refl _)

theorem WF.rowLe {n : Nat} {node : CSNode} (h : WF n node) :
    node.startRow ≤ node.endRow := by
  cases h with
  | mk k sr er sb eb cs h1 h2 h3 h4 => exact h1

theorem WF.rowLt {n : Nat} {node : CSNode} (h : WF n node) :
    node.endRow < n := by
  cases h with
  | mk k sr er sb eb cs h1 h2 h3 h4 => exact h2

theorem subStr_refl (a : Str) : SubStr a a := ⟨[], [], by simp⟩

theorem subStr_trans {a b c : Str} (h1 : SubStr a b) (h2 : SubStr b c) :
    SubStr a c := by
  obtain ⟨u, v, rfl⟩ := h1
  obtain ⟨u', v', rfl⟩ := h2
  exact ⟨u' ++ u, v ++ v', by simp [List.append_assoc]⟩

theorem subStr_length {a b : Str} (h : SubStr a b) : a.length ≤ b.length := by
  obtain ⟨u, v, rfl⟩ := h
  simp only [List.length_append]
  omega

theorem dropWhile_subStr (p : Char → Bool) (s : Str) :
    SubStr (s.dropWhile p) s :=
  ⟨s.takeWhile p, [], by simp [List.takeWhile_append_dropWhile]⟩

theorem reverse_subStr {a b : Str} (h : SubStr a b) :
    SubStr a.reverse b.reverse := by
  obtain ⟨u, v, rfl⟩ := h
  exact ⟨v.reverse, u.reverse, by simp⟩

theorem strip_subStr (s : Str) : SubStr (strip s) s := by
  have h1 : SubStr (s.dropWhile isWS) s := dropWhile_subStr _ _
  have h2 : SubStr ((s.dropWhile isWS).reverse.dropWhile isWS)
      (s.dropWhile isWS).reverse := dropWhile_subStr _ _
  have h3 := reverse_subStr h2
  rw [List.reverse_reverse] at h3
  exact subStr_trans h3 h1

theorem dropWhile_head?_false {p : Char → Bool} {l : Str} {c : Char}
    (h : (l.dropWhile p).head? = some c) : p c = false := by
  induction l with
  | nil => simp at h
  | cons d t ih =>
    by_cases hp : p d
    · rw [List.dropWhile_cons_of_pos hp] at h
      exact ih h
    · rw [List.dropWhile_cons_of_neg hp] at h
      simp only [List.head?_cons, Option.some.injEq] at h
      rw [← h]
      exact Bool.not_eq_true _ ▸ (by simpa using hp)

theorem dropWhile_suffix_getLast? {p : Char → Bool} {l : Str}
    (h : l.dropWhile p ≠ []) : (l.dropWhile p).getLast? = l.getLast? := by
  have hsplit : List.takeWhile p l ++ List.dropWhile p l = l :=
    List.takeWhile_append_dropWhile p l
  conv_rhs => rw [← hsplit]
  rw [List.getLast?_append_of_ne_nil _ h]

/-- The first character of a stripped string is not whitespace. -/
theorem strip_head?_not_ws {s : Str} {c : Char}
    (h : (strip s).head? = some c) : isWS c = false := by
  unfold strip at h
  rw [List.head?_reverse] at h
  have hne : (s.dropWhile isWS).reverse.dropWhile isWS ≠ [] := by
    intro h0
    rw [h0] at h
    simp at h
  rw [dropWhile_suffix_getLast? hne, List.getLast?_reverse] at h
  exact dropWhile_head?_false h

/-- The last character of a stripped string is not whitespace. -/
theorem strip_getLast?_not_ws {s : Str} {c : Char}
    (h : (strip s).getLast? = some c) : isWS c = false := by
  unfold strip at h
  rw [List.getLast?_reverse] at h
  exact dropWhile_head?_false h

theorem dropWhile_append_str (p : Char → Bool) (u w : Str) :
    List.dropWhile p (u ++ w)
      = if (List.dropWhile p u).isEmpty then List.dropWhile p w
        else List.dropWhile p u ++ w := by
  induction u with
  | nil => simp
  | cons c tu ih =>
    by_cases hp : p c
    · rw [List.cons_append, List.dropWhile_cons_of_pos hp,
        List.dropWhile_cons_of_pos hp, ih]
    · rw [List.cons_append, List.dropWhile_cons_of_neg hp,
        List.dropWhile_cons_of_neg hp]
      simp

/-- A non-empty substring starting with a non-whitespace character
survives a left whitespace trim. -/
theorem subStr_dropWhile_left {t s : Str} (hne : t ≠ [])
    (hh : ∀ c, t.head? = some c → isWS c = false) (h : SubStr t s) :
    SubStr t (s.dropWhile isWS) := by
  obtain ⟨u, v, rfl⟩ := h
  cases t with
  | nil => exact absurd rfl hne
  | cons c t' =>
    have hc : isWS c = false := hh c rfl
    have hdw : List.dropWhile isWS ((c :: t') ++ v) = (c :: t') ++ v := by
      rw [List.cons_append, List.dropWhile_cons_of_neg (by simp [hc])]
    rw [List.append_assoc, dropWhile_append_str]
    split
    · rw [hdw]
      exact ⟨[], v, by simp⟩
    · exact ⟨List.dropWhile isWS u, v, by simp [List.append_assoc]⟩

/-- Substring monotonicity of the stripped length: any substring strips to
something no longer than the superstring's strip. -/
theorem strip_length_mono {a b : Str} (h : SubStr a b) :
    (strip a).length ≤ (strip b).length := by
  rcases eq_or_ne (strip a) [] with h0 | h0
  · simp [h0]
  · have hsub : SubStr (strip a) b := subStr_trans (strip_subStr a) h
    have h1 : SubStr (strip a) (b.dropWhile isWS) :=
      subStr_dropWhile_left h0 (fun c hc => strip_head?_not_ws hc) hsub
    have h2 := reverse_subStr h1
    have h2ne : (strip a).reverse ≠ [] := by simpa using h0
    have hh2 : ∀ c, (strip a).reverse.head? = some c → isWS c = false := by
      intro c hc
      rw [List.head?_reverse] at hc
      exact strip_getLast?_not_ws hc
    have h3 : SubStr (strip a).reverse
        ((b.dropWhile isWS).reverse.dropWhile isWS) :=
      subStr_dropWhile_left h2ne hh2 h2
    have h4 := reverse_subStr h3
    rw [List.reverse_reverse] at h4
    exact subStr_length h4

theorem joinLines_append {A B : List Str} (hA : A ≠ []) (hB : B ≠ []) :
    joinLines (A ++ B) = joinLines A ++ '\n' :: joinLines B := by
  induction A with
  | nil => exact absurd rfl hA
  | cons l tA ih =>
    cases tA with
    | nil =>
      cases B with
      | nil => exact absurd rfl hB
      | cons b tB => simp [joinLines]
    | cons l2 tA2 =>
      have hrec := ih (by simp)
      show joinLines (l :: (l2 :: tA2 ++ B)) = _
      have hcons : l2 :: tA2 ++ B = l2 :: (tA2 ++ B) := by simp
      rw [hcons]
      show l ++ '\n' :: joinLines (l2 :: (tA2 ++ B)) = _
      rw [← hcons, hrec]
      show _ = (l ++ '\n' :: joinLines (l2 :: tA2)) ++ '\n' :: joinLines B
      simp [List.append_assoc]

theorem subStr_joinLines_middle (A M B : List Str) :
    SubStr (joinLines M) (joinLines (A ++ M ++ B)) := by
  rcases eq_or_ne M [] with rfl | hM
  · exact ⟨[], joinLines (A ++ [] ++ B), by simp [joinLines]⟩
  rcases eq_or_ne A [] with rfl | hA
  · rcases eq_or_ne B [] with rfl | hB
    · simpa using subStr_refl (joinLines M)
    · rw [List.nil_append, joinLines_append hM hB]
      exact ⟨[], '\n' :: joinLines B, by simp⟩
  · rcases eq_or_ne B [] with rfl | hB
    · rw [List.append_nil, joinLines_append hA hM]
      exact ⟨joinLines A ++ ['\n'], [], by simp [List.append_assoc]⟩
    · rw [List.append_assoc, joinLines_append hA (by simp [hM]),
        joinLines_append hM hB]
      exact ⟨joinLines A ++ ['\n'], '\n' :: joinLines B,
        by simp [List.append_assoc]⟩

theorem sliceLines_split {lines : List Str} {s e s' e' : Nat}
    (h1 : s ≤ s') (h2 : s' ≤ e' + 1) (h3 : e' ≤ e) :
    sliceLines lines s e
      = (lines.drop s).take (s' - s) ++ sliceLines lines s' e'
        ++ (lines.drop (e' + 1)).take (e - e') := by
  unfold sliceLines
  have e1 : e + 1 - s = (s' - s) + ((e' + 1 - s') + (e - e')) := by omega
  rw [e1, List.take_add, List.take_add, List.drop_drop, List.drop_drop]
  have e2 : s + (s' - s) = s' := by omega
  have e3 : s' + (e' + 1 - s') = e' + 1 := by omega
  rw [e2, e3]
  simp [List.append_assoc]

/-- Any node whose row range lies within another's renders to a substring
of the other's rendered text. -/
theorem render_subStr {lines : List Str} {s e s' e' : Nat}
    (h1 : s ≤ s') (h2 : s' ≤ e' + 1) (h3 : e' ≤ e) :
    SubStr (joinLines (sliceLines lines s' e'))
      (joinLines (sliceLines lines s e)) := by
  rw [sliceLines_split h1 h2 h3]
  exact subStr_joinLines_middle _ _ _

theorem mem_traverseList {cfg : ExtractCfg} {lines : List Str}
    {content repo path commit : Str} {cs : List CSNode} {ctx : Str}
    {c : CodeChunk}
    (h : c ∈ traverseList cfg lines content repo path commit cs ctx) :
    ∃ ch ∈ cs, c ∈ traverse cfg lines content repo path commit ch ctx := by
  induction cs with
  | nil => simp [traverseList] at h
  | cons ch rest ih =>
    rw [traverseList] at h
    rcases List.mem_append.1 h with h | h
    · exact ⟨ch, List.mem_cons_self _ _, h⟩
    · rcases ih h with ⟨ch', h1, h2⟩
      exact ⟨ch', List.mem_cons_of_mem _ h1, h2⟩

theorem traverseList_eq_nil {cfg : ExtractCfg} {lines : List Str}
    {content repo path commit : Str} {cs : List CSNode} {ctx : Str}
    (h : ∀ ch ∈ cs, traverse cfg lines content repo path commit ch ctx = []) :
    traverseList cfg lines content repo path commit cs ctx = [] := by
  induction cs with
  | nil => rfl
  | cons ch rest ih =>
    rw [traverseList, h ch (List.mem_cons_self _ _),
      ih (fun ch' hc => h ch' (List.mem_cons_of_mem _ hc))]
    rfl

/-- A well-formed node whose rendered text strips below the minimum size
emits nothing in its whole subtree: every descendant renders to a
substring, so it strips below the threshold as well. -/
theorem traverse_small (cfg : ExtractCfg) (lines : List Str) (content : Str)
    (repo path commit : Str) :
    ∀ node, WF lines.length node →
      (strip (joinLines (sliceLines lines node.startRow node.endRow))).length
        < 10 →
      ∀ ctx, traverse cfg lines content repo path commit node ctx = [] := by
  refine CSNode.strongInd _ ?_
  intro k sr er sb eb cs ih hwf hsmall ctx
  have hbounds : ∀ c ∈ cs, sr ≤ c.startRow ∧ c.endRow ≤ er := by
    cases hwf with
    | mk k sr er sb eb cs h1 h2 h3 h4 => exact h3
  have hwfc : ∀ c ∈ cs, WF lines.length c := by
    cases hwf with
    | mk k sr er sb eb cs h1 h2 h3 h4 => exact h4
  have hkids : ∀ c ∈ cs,
      (strip (joinLines (sliceLines lines c.startRow c.endRow))).length < 10 := by
    intro c hc
    have hsub := @render_subStr lines _ _ _ _ (hbounds c hc).1
      (Nat.le_succ_of_le (hwfc c hc).rowLe) (hbounds c hc).2
    have := strip_length_mono hsub
    simp only [CSNode.startRow, CSNode.endRow] at hsmall
    omega
  have hlist : traverseList cfg lines content repo path commit cs ctx = [] :=
    traverseList_eq_nil (fun ch hc => ih ch hc (hwfc ch hc) (hkids ch hc) ctx)
  rw [traverse]
  by_cases hk : k ∈ targetTypes
  · rw [if_pos hk]
    simp only [CSNode.startRow, CSNode.endRow] at hsmall
    rw [if_pos hsmall]
  · rw [if_neg hk]
    exact hlist

/-! ### Claim C3: too-small target nodes -/

/-- Claim C3: a well-formed target-kind node whose rendered text (stripped)
is below the minimum size emits no chunk, and its output equals that of
descending into its children — which is also empty, because every
descendant renders to a substring of the node's text and therefore also
strips below the threshold.  The source returns early instead of
descending, but since no eligible descendant can exist the emitted chunk
sequence is exactly the descending walk's. -/
theorem C3_small_node_no_chunk (cfg : ExtractCfg) (lines : List Str)
    (content : Str) (repo path commit : Str) (k : Str)
    (sr er sb eb : Nat) (cs : List CSNode) (ctx : Str)
    (hwf : WF lines.length (.mk k sr er sb eb cs))
    (hk : k ∈ targetTypes)
    (hsmall : (strip (joinLines (sliceLines lines sr er))).length < 10) :
    traverse cfg lines content repo path commit (.mk k sr er sb eb cs) ctx
      = traverseList cfg lines content repo path commit cs ctx ∧
    traverse cfg lines content repo path commit (.mk k sr er sb eb cs) ctx
      = [] := by
  have hnode := traverse_small cfg lines content repo path commit _ hwf
    (by simpa [CSNode.startRow, CSNode.endRow] using hsmall) ctx
  have hbounds : ∀ c ∈ cs, sr ≤ c.startRow ∧ c.endRow ≤ er := by
    cases hwf with
    | mk k sr er sb eb cs h1 h2 h3 h4 => exact h3
  have hwfc : ∀ c ∈ cs, WF lines.length c := by
    cases hwf with
    | mk k sr er sb eb cs h1 h2 h3 h4 => exact h4
  have hchildren : traverseList cfg lines content repo path commit cs ctx
      = [] := by
    refine traverseList_eq_nil (fun ch hc => ?_)
    refine traverse_small cfg lines content repo path commit ch (hwfc ch hc)
      ?_ ctx
    have hsub := @render_subStr lines _ _ _ _ (hbounds ch hc).1
      (Nat.le_succ_of_le (hwfc ch hc).rowLe) (hbounds ch hc).2
    have := strip_length_mono hsub
    omega
  exact ⟨hnode.trans hchildren.symm, hnode⟩

theorem C3_witness :
    traverse ecfg0 (splitLines "x;".toList) "x;".toList "r".toList
        "p".toList "h".toList
        (.mk "class_declaration".toList 0 0 0 0
          [.mk "method_declaration".toList 0 0 0 0 []]) []
      = traverseList ecfg0 (splitLines "x;".toList) "x;".toList "r".toList
          "p".toList "h".toList
          [.mk "method_declaration".toList 0 0 0 0 []] [] ∧
    traverse ecfg0 (splitLines "x;".toList) "x;".toList "r".toList
        "p".toList "h".toList
        (.mk "class_declaration".toList 0 0 0 0
          [.mk "method_declaration".toList 0 0 0 0 []]) []
      = [] := by
  refine C3_small_node_no_chunk ecfg0 (splitLines "x;".toList) "x;".toList
    "r".toList "p".toList "h".toList _ 0 0 0 0 _ [] ?_ (by decide) (by decide)
  refine WF.mk _ 0 0 0 0 _ (Nat.le_refl 0) (by decide) ?_ ?_
  · intro c hc
    rcases List.mem_singleton.1 hc with rfl
    exact ⟨Nat.le_refl 0, Nat.le_refl 0⟩
  · intro c hc
    rcases List.mem_singleton.1 hc with rfl
    exact WF.mk _ 0 0 0 0 _ (Nat.le_refl 0) (by decide) (by simp) (by simp)

/-- Every chunk emitted by the structural walk of a well-formed tree is
well-formed: 1-indexed inclusive line range inside the file, content equal
to those lines joined by newlines, and the expected
repo/path/commit/identifier fields. -/
theorem traverse_chunkOk (cfg : ExtractCfg) (lines : List Str)
    (content : Str) (repo path commit : Str) :
    ∀ node, WF lines.length node → ∀ ctx,
      ∀ c ∈ traverse cfg lines content repo path commit node ctx,
        stChunkOk lines path repo commit c := by
  refine CSNode.strongInd _ ?_
  intro k sr er sb eb cs ih hwf ctx c hc
  have hbounds : ∀ ch ∈ cs, sr ≤ ch.startRow ∧ ch.endRow ≤ er := by
    cases hwf with
    | mk k sr er sb eb cs h1 h2 h3 h4 => exact h3
  have hwfc : ∀ ch ∈ cs, WF lines.length ch := by
    cases hwf with
    | mk k sr er sb eb cs h1 h2 h3 h4 => exact h4
  have hsr : sr ≤ er := hwf.rowLe
  have her : er < lines.length := hwf.rowLt
  have hkids : c ∈ traverseList cfg lines content repo path commit cs ctx →
      stChunkOk lines path repo commit c := by
    intro hmem
    rcases mem_traverseList hmem with ⟨ch, h1, h2⟩
    exact ih ch h1 (hwfc ch h1) ctx c h2
  rw [traverse] at hc
  by_cases hk : k ∈ targetTypes
  · rw [if_pos hk] at hc
    by_cases hsm :
        (strip (joinLines (sliceLines lines sr er))).length < 10
    · rw [if_pos hsm] at hc
      simp at hc
    · rw [if_neg hsm] at hc
      by_cases hbig : (joinLines (sliceLines lines sr er)).length
          > cfg.maxChunkSize * 2 ∧ k ∈ containerTypes
      · rw [if_pos hbig] at hc
        exact hkids hc
      · rw [if_neg hbig] at hc
        dsimp only at hc
        rcases List.mem_cons.1 hc with rfl | hc
        · unfold stChunkOk chunkLines
          dsimp only
          refine ⟨⟨by omega, by omega, by omega, ?_⟩, rfl, rfl, rfl, by simp⟩
          show joinLines (sliceLines lines sr er)
              = joinLines (sliceLines lines (sr + 1 - 1) (er + 1 - 1))
          simp
        · by_cases hleaf : k ∈ leafTypes
          · rw [if_pos hleaf] at hc
            simp at hc
          · rw [if_neg hleaf] at hc
            exact hkids hc
  · rw [if_neg hk] at hc
    exact hkids hc

/-! ### Claim C5: line-range and content fidelity of both strategies -/

/-- Claim C5: every chunk produced by parse_file — whether by the
structural walk of a well-formed tree or by the windowing fallback — has a
1-indexed inclusive start/end line pair within the file, and its content
is exactly the text of those lines of the input joined by newlines. -/
theorem C5_chunk_line_fidelity (cfg : ExtractCfg) (avail : Bool)
    (tree : Option CSNode) (content : Str) (path repo commit : Str)
    (lang : Lang) (c : CodeChunk)
    (hwf : ∀ t, tree = some t → WF (splitLines content).length t)
    (hmem : c ∈ parseFile cfg avail tree content path repo commit lang) :
    chunkLines (splitLines content) c := by
  unfold parseFile at hmem
  split at hmem
  · cases tree with
    | none =>
      exact (simpleChunking_ok cfg content path repo commit lang c hmem).1
    | some t =>
      dsimp only at hmem
      split at hmem
      · exact (simpleChunking_ok cfg content path repo commit lang c hmem).1
      · have hm : c ∈ traverse cfg (splitLines content) content repo path
            commit t [] := hmem
        exact (traverse_chunkOk cfg (splitLines content) content repo path
          commit t (hwf t rfl) [] c hm).1
  · exact (simpleChunking_ok cfg content path repo commit lang c hmem).1

theorem C5_witness :
    chunkLines (splitLines "ab".toList)
      (⟨chunkIdKey "r".toList "p".toList 0 "h".toList, "r".toList,
        "p".toList, .python, "ab".toList, 1, 1, "h".toList,
        "simple_chunk".toList, none, none, 2⟩ : CodeChunk) :=
  C5_chunk_line_fidelity ecfg0 false none "ab".toList "p".toList "r".toList
    "h".toList .python _ (fun t h => by simp at h) (by decide)

/-! ### Reconciliation machinery (claim C1) -/

/-- The field facts about structural chunks that need no well-formedness:
the walk stamps every chunk with its repo, path, commit, and the identity
key of its 0-indexed start line. -/
theorem traverse_fields (cfg : ExtractCfg) (lines : List Str)
    (content : Str) (repo path commit : Str) :
    ∀ node ctx, ∀ c ∈ traverse cfg lines content repo path commit node ctx,
      c.repoName = repo ∧ c.filePath = path ∧ c.commitHash = commit ∧
      c.id = chunkIdKey repo path (c.startLine - 1) commit := by
  have main : ∀ node, ∀ ctx,
      ∀ c ∈ traverse cfg lines content repo path commit node ctx,
        c.repoName = repo ∧ c.filePath = path ∧ c.commitHash = commit ∧
        c.id = chunkIdKey repo path (c.startLine - 1) commit := by
    refine CSNode.strongInd _ ?_
    intro k sr er sb eb cs ih ctx c hc
    have hkids : c ∈ traverseList cfg lines content repo path commit cs ctx →
        (c.repoName = repo ∧ c.filePath = path ∧ c.commitHash = commit ∧
         c.id = chunkIdKey repo path (c.startLine - 1) commit) := by
      intro hmem
      rcases mem_traverseList hmem with ⟨ch, h1, h2⟩
      exact ih ch h1 ctx c h2
    rw [traverse] at hc
    by_cases hk : k ∈ targetTypes
    · rw [if_pos hk] at hc
      by_cases hsm :
          (strip (joinLines (sliceLines lines sr er))).length < 10
      · rw [if_pos hsm] at hc
        simp at hc
      · rw [if_neg hsm] at hc
        by_cases hbig : (joinLines (sliceLines lines sr er)).length
            > cfg.maxChunkSize * 2 ∧ k ∈ containerTypes
        · rw [if_pos hbig] at hc
          exact hkids hc
        · rw [if_neg hbig] at hc
          dsimp only at hc
          rcases List.mem_cons.1 hc with rfl | hc
          · exact ⟨rfl, rfl, rfl, by simp⟩
          · by_cases hleaf : k ∈ leafTypes
            · rw [if_pos hleaf] at hc
              simp at hc
            · rw [if_neg hleaf] at hc
              exact hkids hc
    · rw [if_neg hk] at hc
      exact hkids hc
  exact main

/-- Every chunk returned by parse_file carries the call's repository, path
and commit, with an identity key derived from its 0-indexed start line. -/
theorem parseFile_fields (cfg : ExtractCfg) (avail : Bool)
    (tree : Option CSNode) (content : Str) (path repo commit : Str)
    (lang : Lang) :
    ∀ c ∈ parseFile cfg avail tree content path repo commit lang,
      c.repoName = repo ∧ c.filePath = path ∧ c.commitHash = commit ∧
      c.id = chunkIdKey repo path (c.startLine - 1) commit := by
  intro c hmem
  unfold parseFile at hmem
  split at hmem
  · cases tree with
    | none =>
      have h := simpleChunking_ok cfg content path repo commit lang c hmem
      exact ⟨h.2.2.1, h.2.2.2.1, h.2.2.2.2.1, h.2.2.2.2.2⟩
    | some t =>
      dsimp only at hmem
      split at hmem
      · have h := simpleChunking_ok cfg content path repo commit lang c hmem
        exact ⟨h.2.2.1, h.2.2.2.1, h.2.2.2.2.1, h.2.2.2.2.2⟩
      · exact traverse_fields cfg (splitLines content) content repo path
          commit t [] c hmem
  · have h := simpleChunking_ok cfg content path repo commit lang c hmem
    exact ⟨h.2.2.1, h.2.2.2.1, h.2.2.2.2.1, h.2.2.2.2.2⟩

theorem upsertChunks_cons (store : List CodeChunk) (c : CodeChunk)
    (rest : List CodeChunk) :
    upsertChunks store (c :: rest)
      = upsertChunks (if store.any (fun d => d.id = c.id) then store
          else store ++ [c]) rest := by
  rfl

theorem mem_upsertChunks {c : CodeChunk} {store chunks : List CodeChunk}
    (h : c ∈ upsertChunks store chunks) : c ∈ store ∨ c ∈ chunks := by
  induction chunks generalizing store with
  | nil => exact Or.inl h
  | cons d rest ih =>
    rw [upsertChunks_cons] at h
    rcases ih h with h | h
    · split at h
      · exact Or.inl h
      · rcases List.mem_append.1 h with h | h
        · exact Or.inl h
        · rcases List.mem_singleton.1 h with rfl
          exact Or.inr (List.mem_cons_self _ _)
    · exact Or.inr (List.mem_cons_of_mem _ h)

/-- When the incoming chunks collide with nothing in a prefix of the store,
the prefix passes through an upsert untouched. -/
theorem upsertChunks_split (store1 : List CodeChunk) :
    ∀ (chunks store2 : List CodeChunk),
    (∀ c ∈ chunks, ∀ d ∈ store1, ¬ d.id = c.id) →
    upsertChunks (store1 ++ store2) chunks
      = store1 ++ upsertChunks store2 chunks := by
  intro chunks
  induction chunks with
  | nil => intro store2 _; rfl
  | cons c rest ih =>
    intro store2 hdisj
    rw [upsertChunks_cons, upsertChunks_cons]
    have hany : (store1 ++ store2).any (fun d => d.id = c.id)
        = store2.any (fun d => d.id = c.id) := by
      rw [List.any_append]
      have h1 : store1.any (fun d => d.id = c.id) = false := by
        rw [List.any_eq_false]
        intro d hd
        simpa using hdisj c (List.mem_cons_self _ _) d hd
      rw [h1]
      simp
    rw [hany]
    split
    · exact ih store2 (fun c' hc' => hdisj c' (List.mem_cons_of_mem _ hc'))
    · rw [List.append_assoc]
      exact ih (store2 ++ [c])
        (fun c' hc' => hdisj c' (List.mem_cons_of_mem _ hc'))

/-- An upsert of chunks that all fail a predicate does not change the
store's filtration by that predicate. -/
theorem filter_upsertChunks_of_none (pred : CodeChunk → Bool) :
    ∀ (chunks store : List CodeChunk),
    (∀ c ∈ chunks, pred c = false) →
    (upsertChunks store chunks).filter pred = store.filter pred := by
  intro chunks
  induction chunks with
  | nil => intro store _; rfl
  | cons c rest ih =>
    intro store hall
    rw [upsertChunks_cons]
    split
    · exact ih store (fun c' hc' => hall c' (List.mem_cons_of_mem _ hc'))
    · rw [ih (store ++ [c]) (fun c' hc' => hall c' (List.mem_cons_of_mem _ hc')),
        List.filter_append]
      have : [c].filter pred = [] := by
        simp [List.filter, hall c (List.mem_cons_self _ _)]
      rw [this, List.append_nil]

/-- Deleting another path's chunks does not change the chunks stored for
(repo, p). -/
theorem filter_deleteByFile_other (r p q : Str) (hq : q ≠ p)
    (store : List CodeChunk) :
    (deleteChunksByFile r q store).1.filter
        (fun c => c.repoName = r ∧ c.filePath = p)
      = store.filter (fun c => c.repoName = r ∧ c.filePath = p) := by
  unfold deleteChunksByFile
  dsimp only
  rw [List.filter_filter]
  refine List.filter_congr ?_
  intro c _
  by_cases hb : c.repoName = r ∧ c.filePath = p
  · have hnq : ¬ (c.repoName = r ∧ c.filePath = q) := by
      intro hcq
      apply hq
      rw [← hcq.2, hb.2]
    simp only [hb, hnq]
    simp [hb]
    exact fun hpq => hq hpq.symm
  · simp [hb]

/-- One per-file step on a path other than p: the (repo, p) chunks are
untouched, and every stored chunk outside (repo, p) keeps an identifier
disjoint from the fresh identifiers of p. -/
theorem processFileStep_c1_frame (e : ExtractCfg) (r cm : Str)
    (env : IngestEnv) (modified : List Str) (p : Str)
    (fresh : List CodeChunk)
    (hfa : ∀ fid ∈ fresh.map (fun c => c.id), ∃ l, fid = chunkIdKey r p l cm)
    (q : Str) (hq : q ≠ p) (acc : SysState × Stats)
    (hid : ∀ c ∈ acc.1.store, ¬(c.repoName = r ∧ c.filePath = p) →
      c.id ∉ fresh.map (fun c => c.id)) :
    (∀ c ∈ (processFileStep e r cm env modified acc q).1.store,
      ¬(c.repoName = r ∧ c.filePath = p) →
        c.id ∉ fresh.map (fun c => c.id)) ∧
    (processFileStep e r cm env modified acc q).1.store.filter
        (fun c => c.repoName = r ∧ c.filePath = p)
      = acc.1.store.filter (fun c => c.repoName = r ∧ c.filePath = p) := by
  unfold processFileStep
  cases hdl : detectLanguage q with
  | none => exact ⟨hid, rfl⟩
  | some lang =>
    cases hfc : env.fileContent q with
    | none => exact ⟨hid, rfl⟩
    | some content =>
      dsimp only
      by_cases hcn : content = []
      · rw [if_pos hcn]
        exact ⟨hid, rfl⟩
      · rw [if_neg hcn]
        have hacc1 : ∀ st1 : SysState × Stats,
            st1 = (if q ∈ modified then
              ({ acc.1 with store := (deleteChunksByFile r q acc.1.store).1 },
               { acc.2 with
                  chunksDeleted := acc.2.chunksDeleted
                    + (deleteChunksByFile r q acc.1.store).2
                  filesModified := acc.2.filesModified + 1 })
              else (acc.1,
               { acc.2 with filesAdded := acc.2.filesAdded + 1 })) →
            (∀ c ∈ st1.1.store, ¬(c.repoName = r ∧ c.filePath = p) →
              c.id ∉ fresh.map (fun c => c.id)) ∧
            st1.1.store.filter (fun c => c.repoName = r ∧ c.filePath = p)
              = acc.1.store.filter (fun c => c.repoName = r ∧ c.filePath = p) := by
          intro st1 hst1
          by_cases hm : q ∈ modified
          · rw [if_pos hm] at hst1
            subst hst1
            refine ⟨?_, filter_deleteByFile_other r p q hq _⟩
            intro c hc
            exact hid c (List.mem_filter.1 hc).1
          · rw [if_neg hm] at hst1
            subst hst1
            exact ⟨hid, rfl⟩
        have h1 := hacc1 _ rfl
        have hfields := parseFile_fields e env.parserAvail (env.treeOf content)
          content q r cm lang
        have hbypfalse : ∀ c ∈ parseFile e env.parserAvail (env.treeOf content)
            content q r cm lang,
            (decide (c.repoName = r ∧ c.filePath = p)) = false := by
          intro c hc
          have := (hfields c hc).2.1
          simp only [decide_eq_false_iff_not]
          intro hcp
          exact hq (this ▸ hcp.2)
        have hidsfree : ∀ c ∈ parseFile e env.parserAvail (env.treeOf content)
            content q r cm lang, c.id ∉ fresh.map (fun c => c.id) := by
          intro c hc hin
          rcases hfa c.id hin with ⟨l, hl⟩
          have hck := (hfields c hc).2.2.2
          rw [hck] at hl
          exact hq (chunkIdKey_inj_path_line hl).1
        split
        · exact h1
        · constructor
          · intro c hc hnb
            rcases mem_upsertChunks hc with hc | hc
            · exact h1.1 c hc hnb
            · exact hidsfree c hc
          · rw [filter_upsertChunks_of_none _ _ _ hbypfalse]
            exact h1.2

/-- Folding the per-file loop over paths other than p keeps the (repo, p)
chunks and the identifier disjointness intact. -/
theorem processFold_c1_frame (e : ExtractCfg) (r cm : Str)
    (env : IngestEnv) (modified : List Str) (p : Str)
    (fresh : List CodeChunk)
    (hfa : ∀ fid ∈ fresh.map (fun c => c.id), ∃ l, fid = chunkIdKey r p l cm) :
    ∀ (l : List Str), (∀ q ∈ l, q ≠ p) →
    ∀ (acc : SysState × Stats),
    (∀ c ∈ acc.1.store, ¬(c.repoName = r ∧ c.filePath = p) →
      c.id ∉ fresh.map (fun c => c.id)) →
    (∀ c ∈ (l.foldl (processFileStep e r cm env modified) acc).1.store,
      ¬(c.repoName = r ∧ c.filePath = p) →
        c.id ∉ fresh.map (fun c => c.id)) ∧
    (l.foldl (processFileStep e r cm env modified) acc).1.store.filter
        (fun c => c.repoName = r ∧ c.filePath = p)
      = acc.1.store.filter (fun c => c.repoName = r ∧ c.filePath = p) := by
  intro l
  induction l with
  | nil => intro _ acc hid; exact ⟨hid, rfl⟩
  | cons q rest ih =>
    intro hl acc hid
    have hstep := processFileStep_c1_frame e r cm env modified p fresh hfa q
      (hl q (List.mem_cons_self _ _)) acc hid
    have hrec := ih (fun q' hq' => hl q' (List.mem_cons_of_mem _ hq')) _ hstep.1
    exact ⟨hrec.1, hrec.2.trans hstep.2⟩

/-- The deleted-files loop only shrinks the store, so identifier
disjointness outside (repo, p) is preserved. -/
theorem deleteFold_c1_id (r p : Str) (fresh : List CodeChunk) :
    ∀ (l : List Str) (acc : SysState × Stats),
    (∀ c ∈ acc.1.store, ¬(c.repoName = r ∧ c.filePath = p) →
      c.id ∉ fresh.map (fun c => c.id)) →
    (∀ c ∈ (l.foldl (deleteFileStep r) acc).1.store,
      ¬(c.repoName = r ∧ c.filePath = p) →
        c.id ∉ fresh.map (fun c => c.id)) := by
  intro l
  induction l with
  | nil => intro acc hid; exact hid
  | cons q rest ih =>
    intro acc hid
    refine ih _ ?_
    intro c hc
    exact hid c (List.mem_filter.1 hc).1

/-- The per-file step at the modified path p itself, with readable
non-empty content: it retires every stored (repo, p) chunk and inserts the
freshly extracted ones, de-duplicated by identifier. -/
theorem processFileStep_c1_at_p (e : ExtractCfg) (r cm : Str)
    (env : IngestEnv) (modified : List Str) (p s : Str) (lang : Lang)
    (hlang : detectLanguage p = some lang)
    (hcont : env.fileContent p = some s) (hs : s ≠ [])
    (hm : p ∈ modified) (acc : SysState × Stats)
    (hid : ∀ c ∈ acc.1.store, ¬(c.repoName = r ∧ c.filePath = p) →
      c.id ∉ (parseFile e env.parserAvail (env.treeOf s) s p r cm
        lang).map (fun c => c.id)) :
    (processFileStep e r cm env modified acc p).1.store.filter
        (fun c => c.repoName = r ∧ c.filePath = p)
      = dedupById (parseFile e env.parserAvail (env.treeOf s) s p r cm lang) ∧
    (∀ c ∈ (processFileStep e r cm env modified acc p).1.store,
      ¬(c.repoName = r ∧ c.filePath = p) →
        c.id ∉ (parseFile e env.parserAvail (env.treeOf s) s p r cm
          lang).map (fun c => c.id)) := by
  have hfields := parseFile_fields e env.parserAvail (env.treeOf s) s p r cm lang
  unfold processFileStep
  rw [hlang, hcont]
  dsimp only
  rw [if_neg hs, if_pos hm]
  set fresh := parseFile e env.parserAvail (env.treeOf s) s p r cm lang with hfr
  set store1 := (deleteChunksByFile r p acc.1.store).1 with hst1
  have hall1 : ∀ d ∈ store1, ¬(d.repoName = r ∧ d.filePath = p) := by
    intro d hd
    exact of_decide_eq_true (List.mem_filter.1 hd).2
  have hids1 : ∀ d ∈ store1, d.id ∉ fresh.map (fun c => c.id) := by
    intro d hd
    exact hid d (List.mem_filter.1 hd).1 (hall1 d hd)
  have hfil1 : store1.filter (fun c => c.repoName = r ∧ c.filePath = p) = [] := by
    rw [List.filter_eq_nil]
    intro d hd
    simpa using hall1 d hd
  by_cases hch : fresh = []
  · rw [if_pos hch]
    dsimp only
    constructor
    · rw [hch]
      exact hfil1
    · exact fun c hc hnb => hids1 c hc
  · rw [if_neg hch]
    dsimp only
    have hdisj : ∀ c ∈ fresh, ∀ d ∈ store1, ¬ d.id = c.id := by
      intro c hc d hd heq
      exact hids1 d hd (heq ▸ List.mem_map_of_mem (fun c => c.id) hc)
    have hsplit : upsertChunks store1 fresh = store1 ++ dedupById fresh := by
      have := upsertChunks_split store1 fresh [] hdisj
      rw [List.append_nil] at this
      exact this
    rw [hsplit]
    have hdedup_sub : ∀ c ∈ dedupById fresh, c ∈ fresh := by
      intro c hc
      rcases mem_upsertChunks hc with hc | hc
      · simp at hc
      · exact hc
    have hdedup_byp : ∀ c ∈ dedupById fresh,
        (decide (c.repoName = r ∧ c.filePath = p)) = true := by
      intro c hc
      have h := hfields c (hdedup_sub c hc)
      simp [h.1, h.2.1]
    constructor
    · rw [List.filter_append, hfil1, List.nil_append]
      exact List.filter_eq_self.2 hdedup_byp
    · intro c hc hnb
      rcases List.mem_append.1 hc with hc | hc
      · exact hids1 c hc
      · exfalso
        apply hnb
        have h := hfields c (hdedup_sub c hc)
        exact ⟨h.1, h.2.1⟩

/-! ### Claim C1: retire-before-rebuild for modified paths -/

/-- Claim C1 counterexample: f.py is reported as modified but its new
content reads back as the empty string; process_repository then skips the
file before deleting anything (`if not content: continue`), so both stale
chunks for (r, f.py) survive the pass, while a fresh extraction of the
empty content would produce one chunk. -/
theorem C1_counterexample :
    (getChangedFiles cfgPy envEmptyMod.git (some "c1".toList)).2.1
      = ["f.py".toList] ∧
    ((processRepository cfgPy envEmptyMod false sysStale).2.store.filter
        (fun c => c.repoName = "r".toList ∧ c.filePath = "f.py".toList)).length
      = 2 ∧
    (processRepository cfgPy envEmptyMod false sysStale).2.store
      = [staleChunk1, staleChunk2] ∧
    (parseFile ecfg0 false none [] "f.py".toList "r".toList "c2".toList
      .python).length = 1 := by
  decide

/-- Claim C1 (amended): for a path reported as modified whose content
reads back as a non-empty string, process_repository removes all
previously stored chunks for that (repository, path) before inserting the
freshly extracted ones; after the pass the chunks stored for that path are
exactly the fresh extraction de-duplicated by identifier — provided no
surviving chunk of a different path carries one of the fresh identifiers
(chunks of other paths written in the same pass cannot, by key
injectivity). -/
theorem C1_amended_retire_rebuild (cfg : RepoCfg) (env : IngestEnv)
    (force : Bool) (st : SysState) (p s : Str) (lang : Lang)
    (hgit : env.gitOk = true)
    (hskip : skipCheck cfg env force st = false)
    (hmod : p ∈ (getChangedFiles cfg env.git (oldCommitOf cfg force st)).2.1)
    (hnd : ((getChangedFiles cfg env.git (oldCommitOf cfg force st)).1
        ++ (getChangedFiles cfg env.git (oldCommitOf cfg force st)).2.1).Nodup)
    (hlang : detectLanguage p = some lang)
    (hcont : env.fileContent p = some s) (hs : s ≠ [])
    (hid : ∀ c ∈ st.store, ¬(c.repoName = cfg.name ∧ c.filePath = p) →
      c.id ∉ (parseFile env.ecfg env.parserAvail (env.treeOf s) s p cfg.name
        env.currentCommit lang).map (fun c => c.id)) :
    (processRepository cfg env force st).2.store.filter
        (fun c => c.repoName = cfg.name ∧ c.filePath = p)
      = dedupById (parseFile env.ecfg env.parserAvail (env.treeOf s) s p
          cfg.name env.currentCommit lang) := by
  have hne : ¬ env.gitOk = false := by rw [hgit]; simp
  have hsk : ¬ skipCheck cfg env force st = true := by rw [hskip]; simp
  have hfa : ∀ fid ∈ (parseFile env.ecfg env.parserAvail (env.treeOf s) s p
      cfg.name env.currentCommit lang).map (fun c => c.id),
      ∃ l, fid = chunkIdKey cfg.name p l env.currentCommit := by
    intro fid hf
    rcases List.mem_map.1 hf with ⟨c, hc, rfl⟩
    exact ⟨c.startLine - 1,
      (parseFile_fields env.ecfg env.parserAvail (env.treeOf s) s p cfg.name
        env.currentCommit lang c hc).2.2.2⟩
  unfold processRepository
  rw [if_neg hne, if_neg hsk]
  dsimp only
  rcases List.append_of_mem
    (List.mem_append.2 (Or.inr hmod)) with ⟨l1, l2, hsplit⟩
  have hnodup := hnd
  rw [hsplit] at hnodup
  have hparts := List.nodup_append.1 hnodup
  have hl1 : ∀ q ∈ l1, q ≠ p := by
    intro q hq hqp
    exact hparts.2.2 hq (hqp ▸ List.mem_cons_self p l2)
  have hl2 : ∀ q ∈ l2, q ≠ p := by
    intro q hq hqp
    exact (List.nodup_cons.1 hparts.2.1).1 (hqp ▸ hq)
  rw [hsplit, List.foldl_append, List.foldl_cons]
  have hid1 := deleteFold_c1_id cfg.name p
    (parseFile env.ecfg env.parserAvail (env.treeOf s) s p cfg.name
      env.currentCommit lang)
    (getChangedFiles cfg env.git (oldCommitOf cfg force st)).2.2
    (st, zeroStats) hid
  have h1 := processFold_c1_frame env.ecfg cfg.name env.currentCommit env
    (getChangedFiles cfg env.git (oldCommitOf cfg force st)).2.1 p _ hfa
    l1 hl1 _ hid1
  have h2 := processFileStep_c1_at_p env.ecfg cfg.name env.currentCommit env
    (getChangedFiles cfg env.git (oldCommitOf cfg force st)).2.1 p s lang
    hlang hcont hs hmod _ h1.1
  have h3 := processFold_c1_frame env.ecfg cfg.name env.currentCommit env
    (getChangedFiles cfg env.git (oldCommitOf cfg force st)).2.1 p _ hfa
    l2 hl2 _ h2.2
  exact h3.2.trans h2.1

theorem C1_witness :
    (processRepository cfgPy envNonemptyMod false sysStale).2.store.filter
        (fun c => c.repoName = cfgPy.name ∧ c.filePath = "f.py".toList)
      = dedupById (parseFile envNonemptyMod.ecfg envNonemptyMod.parserAvail
          (envNonemptyMod.treeOf "x = 1".toList) "x = 1".toList
          "f.py".toList cfgPy.name envNonemptyMod.currentCommit .python) :=
  C1_amended_retire_rebuild cfgPy envNonemptyMod false sysStale
    "f.py".toList "x = 1".toList .python rfl (by decide) (by decide)
    (by decide) (by decide) (by decide) (by decide) (by decide)

end CodeRAG
